import Mathlib

/-!
Verification development for the pickleball-result batch document generator
(`src/main.rs`).  The program reads a CSV roster into keyed records
(`HashMap<String, String>`), slices the record sequence into consecutive
chunks of four (`par_chunks(4)`), and for each chunk substitutes player
names, pair labels and the tournament name into an SVG template by plain
sequential text replacement (`str::replace`), writing one PDF per chunk
named from the chunk's index.

Strings are modelled as `List Char`; `String::replace` is modelled by
`replaceAll`, a leftmost, non-overlapping, all-occurrences replacement
identical to Rust's semantics for the non-empty patterns the program uses.
All definitions are executable so concrete runs can be settled by `decide`.
-/

set_option maxRecDepth 100000

abbrev Str := List Char

/-- Boolean test: `p` is a leading segment of `s`. -/
def pfxB : Str → Str → Bool
  | [], _ => true
  | _ :: _, [] => false
  | a :: p, b :: s => a == b && pfxB p s

/-- Proposition form of `pfxB` (kept definitionally decidable). -/
abbrev pfx (p s : Str) : Prop := pfxB p s = true

/-- Boolean test: `p` occurs contiguously somewhere inside `s`. -/
def occB : Str → Str → Bool
  | p, [] => pfxB p []
  | p, c :: t => pfxB p (c :: t) || occB p t

/-- Proposition form of `occB` (kept definitionally decidable). -/
abbrev occ (p s : Str) : Prop := occB p s = true

/-- Fuel-driven worker for `replaceAll`; the fuel dominates the length of the
scanned text, so `replaceAll` below never exhausts it. -/
def replaceAllF : Nat → Str → Str → Str → Str
  | 0, s, _, _ => s
  | _ + 1, [], _, _ => []
  | f + 1, c :: t, p, w =>
    match p with
    | [] => c :: t
    | _ :: _ =>
      if pfxB p (c :: t) then w ++ replaceAllF f ((c :: t).drop p.length) p w
      else c :: replaceAllF f t p w

/-- Model of Rust `str::replace(p, w)` on `s`: every occurrence of `p`,
scanned left to right without overlap, is replaced by `w`.  (For the empty
pattern it is the identity; the program only ever passes non-empty
patterns.) -/
def replaceAll (s p w : Str) : Str := replaceAllF s.length s p w

/-- Decimal digit character, `48 + d` as a code point. -/
def digitChar (d : Nat) : Char := Char.ofNat (48 + d)

/-- Fuel-driven worker for `natStr`. -/
def natStrF : Nat → Nat → Str
  | 0, _ => []
  | f + 1, n => if n < 10 then [digitChar n] else natStrF f (n / 10) ++ [digitChar (n % 10)]

/-- Decimal rendering of a natural number, as Rust's `format!` produces it. -/
def natStr (n : Nat) : Str := natStrF (n + 1) n

/-- Bracketed insertion: the program substitutes values as `>value<`. -/
def wrap (v : Str) : Str := '>' :: v ++ ['<']

/-- Interior text of the player placeholder number `n`. -/
def midPlayer (n : Nat) : Str := "PLAYER".data ++ natStr n

/-- Player placeholder token `>PLAYERn<`. -/
def playerTok (n : Nat) : Str := wrap (midPlayer n)

/-- Interior text of the pair placeholder number `k`. -/
def midPair (k : Nat) : Str := "Pair No".data ++ natStr k

/-- Pair placeholder token `>Pair Nok<`. -/
def pairTok (k : Nat) : Str := wrap (midPair k)

/-- The bare tournament-name token `NAME`. -/
def nameTok : Str := "NAME".data

/-- CSV field key `Players` looked up in a record. -/
def playerKey (s : Nat) : Str := "Player".data ++ natStr s

/-- CSV field key `Pair Noj` looked up in a record. -/
def pairKey (j : Nat) : Str := "Pair No".data ++ natStr j

/-- A roster record: the `HashMap<String, String>` of one CSV row, modelled
as an association list with the map's (unique-key) lookup. -/
abbrev Rec := List (Str × Str)

/-- Lookup of a field value in a record (`HashMap::get`). -/
def getf : Rec → Str → Option Str
  | [], _ => none
  | (k, v) :: r, key => if k = key then some v else getf r key

/-- One iteration of the inner `for player_num in 1..=4` loop of
`replace_svg` for the record at chunk position `p`: if the record supplies
`Players`, replace `>PLAYER(p*4+s)<` with the bracketed value, and (for
slots 1 and 3 only, and only inside that branch) if it also supplies the
matching pair label, replace `>Pair No(p*2+s/2+1)<` with it. -/
def slotStep (p : Nat) (r : Rec) (s : Nat) (t : Str) : Str :=
  match getf r (playerKey s) with
  | none => t
  | some v =>
    let t1 := replaceAll t (playerTok (p * 4 + s)) (wrap v)
    if s = 1 ∨ s = 3 then
      match getf r (pairKey (s / 2 + 1)) with
      | none => t1
      | some w => replaceAll t1 (pairTok (p * 2 + s / 2 + 1)) (wrap w)
    else t1

/-- All four slot iterations for one record, in source order. -/
def recStep (p : Nat) (r : Rec) (t : Str) : Str :=
  slotStep p r 4 (slotStep p r 3 (slotStep p r 2 (slotStep p r 1 t)))

/-- The outer `for (group_index, group) in player_groups.iter().enumerate()`
loop of `replace_svg`: `p` is the running enumeration index. -/
def phaseAux : Nat → List Rec → Str → Str
  | _, [], t => t
  | p, r :: rs, t => phaseAux (p + 1) rs (recStep p r t)

/-- Model of `replace_svg`: bail out on an empty chunk, run the player/pair
replacements over the enumerated records, then replace every bare `NAME`
with the tournament name. -/
def replace_svg (svg : Str) (player_groups : List Rec) (tournament_name : Str) : Option Str :=
  if player_groups = [] then none
  else some (replaceAll (phaseAux 0 player_groups svg) nameTok tournament_name)

/-- Output artifact path `base_i.pdf` built by `process_group`. -/
def outName (base : Str) (i : Nat) : Str := base ++ '_' :: natStr i ++ ".pdf".data

/-- Model of `process_group`: substituted text plus the artifact it writes,
identified by its deterministic path.  Rendering is the external
collaborator and is represented by the (path, substituted text) pair. -/
def process_group (master_svg : Str) (group : List Rec) (tournament_name base : Str)
    (group_index : Nat) : Option (Str × Str) :=
  (replace_svg master_svg group tournament_name).map (fun t => (t, outName base group_index))

/-- Model of slicing a record sequence into consecutive chunks of four
(`par_chunks(4)`): every chunk but possibly the last has exactly four
elements, and an empty input yields no chunks. -/
def chunks4 {α : Type} : List α → List (List α)
  | [] => []
  | [a] => [[a]]
  | [a, b] => [[a, b]]
  | [a, b, c] => [[a, b, c]]
  | a :: b :: c :: d :: rest => [a, b, c, d] :: chunks4 rest

/-- Worker for `process_player_groups`: run `process_group` on each chunk
with its enumeration index, failing as a whole if any chunk fails. -/
def runGroups (svg name base : Str) : Nat → List (List Rec) → Option (List (Str × Str))
  | _, [] => some []
  | i, g :: gs =>
    match process_group svg g name base i with
    | none => none
    | some art => (runGroups svg name base (i + 1) gs).map (art :: ·)

/-- Model of `process_player_groups` on already-deserialized records. -/
def process_player_groups (records : List Rec) (svg name base : Str) :
    Option (List (Str × Str)) :=
  runGroups svg name base 0 (chunks4 records)

/-- Boolean test: the string contains neither `>` nor `<`. -/
def bfreeB (v : Str) : Bool := v.all (fun c => !(c == '>') && !(c == '<'))

/-- Proposition form of `bfreeB`. -/
abbrev bfree (v : Str) : Prop := bfreeB v = true

/-- A value is token-free when it contains none of the letter sequences from
which the program's placeholder tokens are built. -/
abbrev tokenFree (v : Str) : Prop :=
  ¬ occ ("PLAYER".data) v ∧ ¬ occ ("Pair No".data) v ∧ ¬ occ nameTok v

/-- Apply a list of (interior, value) replacement steps left to right, each
one a bracketed whole-text replacement. -/
def applySteps (l : List (Str × Str)) (t : Str) : Str :=
  l.foldl (fun acc mv => replaceAll acc (wrap mv.1) (wrap mv.2)) t

/-- The (interior, value) replacement steps that `slotStep p r s` performs,
in source order. -/
def slotSteps (p s : Nat) (r : Rec) : List (Str × Str) :=
  match getf r (playerKey s) with
  | none => []
  | some v =>
    (midPlayer (p * 4 + s), v) ::
      (if s = 1 ∨ s = 3 then
        match getf r (pairKey (s / 2 + 1)) with
        | none => []
        | some w => [(midPair (p * 2 + s / 2 + 1), w)]
      else [])

/-- The replacement steps of one record, in source order. -/
def recSteps (p : Nat) (r : Rec) : List (Str × Str) :=
  slotSteps p 1 r ++ slotSteps p 2 r ++ slotSteps p 3 r ++ slotSteps p 4 r

/-- The replacement steps of a whole chunk, in source order. -/
def stepsAux : Nat → List Rec → List (Str × Str)
  | _, [] => []
  | p, r :: rs => recSteps p r ++ stepsAux (p + 1) rs

/-- Remove every binding of key `k` from a record. -/
def eraseKey (k : Str) : Rec → Rec
  | [] => []
  | (k', v) :: r => if k' = k then eraseKey k r else (k', v) :: eraseKey k r

/-- Apply `f` to the record at 0-based position `p` of a group, leaving every
other record unchanged. -/
def modifyRec (f : Rec → Rec) : Nat → List Rec → List Rec
  | _, [] => []
  | 0, r :: rs => f r :: rs
  | p + 1, r :: rs => r :: modifyRec f p rs

/-- Modelled from the spec: the strict-positional variant of the pipeline
(spec sections 4.1, 4.3 and 8) is one of the repository's two near-duplicate
program variants and its source is not under `src/`; only the keyed variant
is.  Its roster must begin with this exact header line. -/
def positionalHeader : Str := "player1,player2,player3,player4".data

/-- Modelled from the spec: split one positional roster line on the fixed
`,` delimiter; no arity check is performed. -/
def splitComma : Str → List Str
  | [] => [[]]
  | c :: rest =>
    match splitComma rest with
    | [] => [[]]
    | f :: fs => if c = ',' then [] :: f :: fs else (c :: f) :: fs

/-- Modelled from the spec: the positional record at group index `gidx`
supplies a value for each slot `s` in `1..=4` that it has a field for, and
the engine replaces `>PLAYER(gidx*4+s)<` with the bracketed value
(spec section 4.3 step 2). -/
def posSlots (gidx : Nat) (fields : List Str) (t : Str) : Str :=
  let t1 := if 1 ≤ fields.length then
    replaceAll t (playerTok (gidx * 4 + 1)) (wrap (fields.getD 0 [])) else t
  let t2 := if 2 ≤ fields.length then
    replaceAll t1 (playerTok (gidx * 4 + 2)) (wrap (fields.getD 1 [])) else t1
  let t3 := if 3 ≤ fields.length then
    replaceAll t2 (playerTok (gidx * 4 + 3)) (wrap (fields.getD 2 [])) else t2
  if 4 ≤ fields.length then
    replaceAll t3 (playerTok (gidx * 4 + 4)) (wrap (fields.getD 3 [])) else t3

/-- Modelled from the spec: substitute one positional group, then replace
every bare `NAME` with the tournament name (spec section 4.3 step 3). -/
def posGroupSub (svg : Str) (gidx : Nat) (group : List (List Str)) (name : Str) : Str :=
  replaceAll (group.foldl (fun t fields => posSlots gidx fields t) svg) nameTok name

/-- Modelled from the spec: produce the (substituted text, artifact path)
pair of each positional group in order. -/
def posArtsAux (svg name base : Str) : Nat → List (List (List Str)) → List (Str × Str)
  | _, [] => []
  | i, g :: gs => (posGroupSub svg i g name, outName base i) :: posArtsAux svg name base (i + 1) gs

/-- Modelled from the spec: the whole positional run.  The roster must start
with the exact expected header (`InvalidHeaderError` otherwise, modelled as
`none`); data lines are split on commas, grouped in fours, substituted and
rendered to `base_i.pdf`. -/
def positionalRun (roster : List Str) (svg name base : Str) : Option (List (Str × Str)) :=
  match roster with
  | [] => none
  | h :: rows =>
    if h = positionalHeader then
      some (posArtsAux svg name base 0 (chunks4 (rows.map splitComma)))
    else none

/-- Discipline of one replacement step: both the token interior and the
inserted value are free of the bracket characters. -/
def StepOk (x : Str × Str) : Prop := bfree x.1 ∧ bfree x.2

/-- Mutual non-interference of two replacement steps: distinct token
interiors, and neither token interior equals the other step's value. -/
def StepsCompat (x y : Str × Str) : Prop := x.1 ≠ y.1 ∧ x.1 ≠ y.2 ∧ y.1 ≠ x.2

/-- All values stored in a record are bracket-free and token-free. -/
abbrev cleanRec (r : Rec) : Prop := ∀ kv ∈ r, bfree kv.2 ∧ tokenFree kv.2

/-- Per-record condition under which the record's slot replacements leave
the text `T` untouched: each slot is either unsupplied or its player token
does not occur in `T`, and for slots 1 and 3 with a supplied player the
pair label is either unsupplied or its pair token does not occur in `T`. -/
abbrev RecCond (p : Nat) (r : Rec) (T : Str) : Prop :=
  ∀ s, s < 5 → 1 ≤ s →
    (getf r (playerKey s) = none ∨ ¬ occ (playerTok (p * 4 + s)) T) ∧
    ((s = 1 ∨ s = 3) → getf r (playerKey s) ≠ none →
      (getf r (pairKey (s / 2 + 1)) = none ∨ ¬ occ (pairTok (p * 2 + s / 2 + 1)) T))

/-! ### Basic properties of `pfx` and `occ` -/

theorem pfx_iff : ∀ (p s : Str), pfx p s ↔ ∃ t, p ++ t = s
  | [], s => by simp [pfx, pfxB]
  | _ :: _, [] => by simp [pfx, pfxB]
  | a :: p, b :: s => by
    simp only [pfx, pfxB, Bool.and_eq_true, beq_iff_eq]
    constructor
    · rintro ⟨rfl, h⟩
      obtain ⟨t, rfl⟩ := (pfx_iff p s).1 h
      exact ⟨t, rfl⟩
    · rintro ⟨t, h⟩
      injection h with h1 h2
      exact ⟨h1, (pfx_iff p s).2 ⟨t, h2⟩⟩

theorem occ_iff : ∀ (p s : Str), occ p s ↔ ∃ u v, s = u ++ p ++ v
  | p, [] => by
    cases p with
    | nil => simp [occ, occB, pfxB]
    | cons a p => simp [occ, occB, pfxB, eq_comm]
  | p, c :: t => by
    simp only [occ, occB, Bool.or_eq_true]
    constructor
    · rintro (h | h)
      · obtain ⟨u, hu⟩ := (pfx_iff p (c :: t)).1 h
        exact ⟨[], u, by simp [← hu]⟩
      · obtain ⟨u, v, rfl⟩ := ((occ_iff p t).1 h)
        exact ⟨c :: u, v, by simp⟩
    · rintro ⟨u, v, h⟩
      cases u with
      | nil =>
        exact Or.inl ((pfx_iff p (c :: t)).2 ⟨v, by simpa using h.symm⟩)
      | cons x u =>
        injection h with h1 h2
        exact Or.inr ((occ_iff p t).2 ⟨u, v, h2⟩)

theorem occ_of_pfx {p s : Str} (h : pfx p s) : occ p s := by
  cases s with
  | nil =>
    cases p with
    | nil => rfl
    | cons a q => exact absurd h (by simp [pfx, pfxB])
  | cons c t => simp [occ, occB, h]

theorem occ_cons {p : Str} (c : Char) {t : Str} (h : occ p t) : occ p (c :: t) := by
  simp [occ, occB, h]

theorem pfx_self_append (p t : Str) : pfx p (p ++ t) := (pfx_iff p (p ++ t)).2 ⟨t, rfl⟩

theorem pfx_cons {a c : Char} {q s : Str} (h : pfx (a :: q) (c :: s)) : a = c ∧ pfx q s := by
  simpa [pfx, pfxB, Bool.and_eq_true, beq_iff_eq] using h

theorem occ_mem {p s : Str} (h : occ p s) : ∀ c ∈ p, c ∈ s := by
  obtain ⟨u, v, rfl⟩ := (occ_iff p s).1 h
  intro c hc
  simp [List.mem_append, hc]

theorem occ_trans {p q s : Str} (h1 : occ p q) (h2 : occ q s) : occ p s := by
  obtain ⟨u1, v1, rfl⟩ := (occ_iff p q).1 h1
  obtain ⟨u2, v2, rfl⟩ := (occ_iff _ s).1 h2
  exact (occ_iff p _).2 ⟨u2 ++ u1, v1 ++ v2, by simp⟩

theorem occ_of_pfx_occ {p q s : Str} (h1 : pfx p q) (h2 : occ q s) : occ p s :=
  occ_trans (occ_of_pfx h1) h2

/-! ### Unfolding equations for `replaceAll` -/

theorem replaceAllF_empty : ∀ (f : Nat) (p w : Str), replaceAllF f [] p w = [] := by
  intro f p w
  cases f <;> rfl

theorem replaceAllF_cons (f : Nat) (c : Char) (t : Str) (a : Char) (q w : Str) :
    replaceAllF (f + 1) (c :: t) (a :: q) w =
      if pfxB (a :: q) (c :: t) then
        w ++ replaceAllF f ((c :: t).drop (a :: q).length) (a :: q) w
      else c :: replaceAllF f t (a :: q) w := rfl

theorem replaceAllF_congr : ∀ (f₁ : Nat) {f₂ : Nat} {s : Str} (p w : Str),
    s.length ≤ f₁ → s.length ≤ f₂ → replaceAllF f₁ s p w = replaceAllF f₂ s p w := by
  intro f₁
  induction f₁ with
  | zero =>
    intro f₂ s p w h1 _
    have hs : s = [] := List.eq_nil_of_length_eq_zero (Nat.le_zero.1 h1)
    subst hs
    simp [replaceAllF_empty]
  | succ g ih =>
    intro f₂ s p w h1 h2
    cases s with
    | nil => simp [replaceAllF_empty]
    | cons c t =>
      cases f₂ with
      | zero => simp at h2
      | succ g₂ =>
        cases p with
        | nil => rfl
        | cons a q =>
          rw [replaceAllF_cons, replaceAllF_cons]
          by_cases hp : pfxB (a :: q) (c :: t) = true
          · rw [if_pos hp, if_pos hp]
            congr 1
            apply ih
            · simp only [List.length_drop, List.length_cons] at h1 ⊢
              omega
            · simp only [List.length_drop, List.length_cons] at h2 ⊢
              omega
          · rw [if_neg hp, if_neg hp]
            congr 1
            apply ih
            · simp only [List.length_cons] at h1
              omega
            · simp only [List.length_cons] at h2
              omega

theorem replaceAll_nil (p w : Str) : replaceAll [] p w = [] := rfl

theorem replaceAll_pos {p : Str} (hp : p ≠ []) (x w : Str) :
    replaceAll (p ++ x) p w = w ++ replaceAll x p w := by
  obtain ⟨a, q, rfl⟩ : ∃ a q, p = a :: q := by
    cases p with
    | nil => exact absurd rfl hp
    | cons a q => exact ⟨a, q, rfl⟩
  have h2 : pfxB (a :: q) ((a :: q) ++ x) = true := pfx_self_append (a :: q) x
  show replaceAllF ((a :: q) ++ x).length ((a :: q) ++ x) (a :: q) w = _
  rw [show ((a :: q) ++ x).length = (q ++ x).length + 1 from by simp]
  rw [show ((a :: q) ++ x : Str) = a :: (q ++ x) from rfl]
  rw [replaceAllF_cons]
  rw [if_pos (by simp only [List.cons_append] at h2; exact h2)]
  rw [show ((a :: (q ++ x) : Str).drop (a :: q).length) = x from by
    simp [List.drop_left q x]]
  congr 1
  apply replaceAllF_congr
  · simp
  · exact le_rfl

theorem replaceAll_neg {p : Str} {c : Char} {t : Str} (h : ¬ pfx p (c :: t)) (w : Str) :
    replaceAll (c :: t) p w = c :: replaceAll t p w := by
  cases p with
  | nil => exact absurd rfl h
  | cons a q =>
    show replaceAllF (c :: t).length (c :: t) (a :: q) w = _
    rw [show (c :: t : Str).length = t.length + 1 from rfl, replaceAllF_cons]
    rw [if_neg (by simpa [pfx] using h)]
    rfl

theorem replaceAll_of_not_occ : ∀ {s : Str} {p : Str} (w : Str), ¬ occ p s → replaceAll s p w = s := by
  intro s
  induction s with
  | nil => intro p w _; exact replaceAll_nil p w
  | cons c t ih =>
    intro p w h
    have h1 : ¬ pfx p (c :: t) := fun hp => h (occ_of_pfx hp)
    have h2 : ¬ occ p t := fun ho => h (occ_cons c ho)
    rw [replaceAll_neg h1, ih w h2]

theorem replaceAll_whole {p : Str} (hp : p ≠ []) (w : Str) : replaceAll p p w = w := by
  have h := replaceAll_pos hp [] w
  simpa [replaceAll_nil] using h

theorem wrap_ne_nil (x : Str) : wrap x ≠ [] := by simp [wrap]

theorem replaceAll_skip_nogt : ∀ {z : Str}, '>' ∉ z → ∀ (t x w : Str),
    replaceAll (z ++ t) (wrap x) w = z ++ replaceAll t (wrap x) w := by
  intro z
  induction z with
  | nil => intro _ t x w; rfl
  | cons c z ih =>
    intro hz t x w
    have hc : c ≠ '>' := by
      intro h
      exact hz (h ▸ List.mem_cons_self c z)
    have hnp : ¬ pfx (wrap x) (c :: (z ++ t)) := by
      intro hp
      exact hc ((pfx_cons hp).1).symm
    rw [List.cons_append, replaceAll_neg hnp, ih (fun hm => hz (List.mem_cons_of_mem c hm)) t x w]
    simp

/-! ### Bracket discipline -/

theorem bfree_no_gt {v : Str} (h : bfree v) : '>' ∉ v := by
  intro hm
  simp only [bfree, bfreeB, List.all_eq_true] at h
  have h2 := h _ hm
  simp at h2

theorem bfree_no_lt {v : Str} (h : bfree v) : '<' ∉ v := by
  intro hm
  simp only [bfree, bfreeB, List.all_eq_true] at h
  have h2 := h _ hm
  simp at h2

theorem bfree_append {x y : Str} : bfree (x ++ y) ↔ bfree x ∧ bfree y := by
  simp [bfree, bfreeB, List.all_append]

theorem bfree_of_parts {v : Str} (h1 : '>' ∉ v) (h2 : '<' ∉ v) : bfree v := by
  simp only [bfree, bfreeB, List.all_eq_true]
  intro c hc
  simp only [Bool.and_eq_true, Bool.not_eq_true', beq_eq_false_iff_ne, ne_eq]
  exact ⟨fun h => h1 (h ▸ hc), fun h => h2 (h ▸ hc)⟩

theorem lt_cancel : ∀ {x y u v : Str}, '<' ∉ x → '<' ∉ y →
    x ++ '<' :: u = y ++ '<' :: v → x = y ∧ u = v := by
  intro x
  induction x with
  | nil =>
    intro y u v _ hy h
    cases y with
    | nil => simpa using h
    | cons d y =>
      injection h with h1 h2
      rw [← h1] at hy
      exact absurd (List.mem_cons_self _ _) hy
  | cons a x ih =>
    intro y u v hx hy h
    cases y with
    | nil =>
      injection h with h1 h2
      rw [h1] at hx
      exact absurd (List.mem_cons_self _ _) hx
    | cons d y =>
      injection h with h1 h2
      subst h1
      obtain ⟨h3, h4⟩ :=
        ih (fun hm => hx (List.mem_cons_of_mem a hm)) (fun hm => hy (List.mem_cons_of_mem a hm)) h2
      exact ⟨by rw [h3], h4⟩

theorem wrap_pfx {x y t : Str} (hx : bfree x) (hy : bfree y)
    (h : pfx (wrap x) (wrap y ++ t)) : x = y := by
  obtain ⟨r, hr⟩ := (pfx_iff _ _).1 h
  simp only [wrap, List.cons_append, List.append_assoc, List.singleton_append] at hr
  injection hr with h1 h2
  exact (lt_cancel (bfree_no_lt hx) (bfree_no_lt hy) h2).1

theorem replaceAll_skip_wrap {x y : Str} (hx : bfree x) (hy : bfree y) (hxy : x ≠ y)
    (t w : Str) : replaceAll (wrap y ++ t) (wrap x) w = wrap y ++ replaceAll t (wrap x) w := by
  have hnp : ¬ pfx (wrap x) (wrap y ++ t) := fun hp => hxy (wrap_pfx hx hy hp)
  have hz : '>' ∉ y ++ ['<'] := by
    intro hm
    rcases List.mem_append.1 hm with hm | hm
    · exact bfree_no_gt hy hm
    · simp at hm
  have e : wrap y ++ t = '>' :: ((y ++ ['<']) ++ t) := by simp [wrap]
  rw [e] at hnp ⊢
  rw [replaceAll_neg hnp w, replaceAll_skip_nogt hz t x w]
  simp [wrap]

theorem pfx_replaceAll_rev {a v : Str} : ∀ (t : Str) {b : Str}, bfree b →
    pfx (b ++ ['<']) (replaceAll t (wrap a) (wrap v)) → pfx (b ++ ['<']) t := by
  intro t
  induction t with
  | nil =>
    intro b _ h
    rw [replaceAll_nil] at h
    obtain ⟨r, hr⟩ := (pfx_iff _ _).1 h
    simp at hr
  | cons c t ih =>
    intro b hb h
    by_cases hp : pfx (wrap a) (c :: t)
    · obtain ⟨s', hs⟩ := (pfx_iff _ _).1 hp
      rw [← hs, replaceAll_pos (wrap_ne_nil a) s' (wrap v)] at h
      cases b with
      | nil =>
        have h1 := (pfx_cons (show pfx ('<' :: []) ('>' :: (v ++ ['<'] ++ replaceAll s' (wrap a) (wrap v))) from by
          simpa [wrap] using h)).1
        exact absurd h1 (by decide)
      | cons b0 b' =>
        have h1 := (pfx_cons (show pfx (b0 :: (b' ++ ['<'])) ('>' :: (v ++ ['<'] ++ replaceAll s' (wrap a) (wrap v))) from by
          simpa [wrap] using h)).1
        rw [h1] at hb
        exact absurd (List.mem_cons_self _ _) (bfree_no_gt hb)
    · rw [replaceAll_neg hp (wrap v)] at h
      cases b with
      | nil =>
        have h1 := (pfx_cons (show pfx ('<' :: []) (c :: replaceAll t (wrap a) (wrap v)) from by
          simpa using h)).1
        rw [← h1]
        simp [pfx, pfxB]
      | cons b0 b' =>
        have h1 : b0 = c ∧ pfx (b' ++ ['<']) (replaceAll t (wrap a) (wrap v)) :=
          pfx_cons (show pfx (b0 :: (b' ++ ['<'])) (c :: replaceAll t (wrap a) (wrap v)) from by
            simpa using h)
        have hb' : bfree b' := by
          simp only [bfree, bfreeB, List.all_cons, Bool.and_eq_true] at hb
          exact hb.2
        have h2 := ih hb' h1.2
        show pfx (b0 :: (b' ++ ['<'])) (c :: t)
        simp [pfx, pfxB, h1.1, h2]

theorem not_pfx_replaceAll {b : Str} (hb : bfree b) {c : Char} {t a v : Str}
    (h : ¬ pfx (wrap b) (c :: t)) : ¬ pfx (wrap b) (c :: replaceAll t (wrap a) (wrap v)) := by
  intro hp
  have h1 : '>' = c ∧ pfx (b ++ ['<']) (replaceAll t (wrap a) (wrap v)) :=
    pfx_cons (show pfx ('>' :: (b ++ ['<'])) (c :: replaceAll t (wrap a) (wrap v)) from by
      simpa [wrap] using hp)
  have h2 := pfx_replaceAll_rev t hb h1.2
  exact h (show pfx ('>' :: (b ++ ['<'])) (c :: t) from by simp [pfx, pfxB, ← h1.1, h2])

/-! ### Commutation of disciplined bracketed replacements -/

theorem replaceAll_comm_aux {a v b w : Str} (hab : a ≠ b) (haw : a ≠ w) (hbv : b ≠ v)
    (ba : bfree a) (bb : bfree b) (bv : bfree v) (bw : bfree w) :
    ∀ (n : Nat) (s : Str), s.length ≤ n →
      replaceAll (replaceAll s (wrap a) (wrap v)) (wrap b) (wrap w) =
        replaceAll (replaceAll s (wrap b) (wrap w)) (wrap a) (wrap v) := by
  intro n
  induction n with
  | zero =>
    intro s hs
    have : s = [] := List.eq_nil_of_length_eq_zero (Nat.le_zero.1 hs)
    subst this
    simp [replaceAll_nil]
  | succ n ih =>
    intro s hs
    by_cases hPa : pfx (wrap a) s
    · obtain ⟨s', hs'⟩ := (pfx_iff _ _).1 hPa
      subst hs'
      rw [replaceAll_pos (wrap_ne_nil a) s' (wrap v)]
      rw [replaceAll_skip_wrap bb bv hbv (replaceAll s' (wrap a) (wrap v)) (wrap w)]
      rw [replaceAll_skip_wrap bb ba (Ne.symm hab) s' (wrap w)]
      rw [replaceAll_pos (wrap_ne_nil a) _ (wrap v)]
      congr 1
      apply ih
      simp only [List.length_append, wrap, List.length_cons] at hs ⊢
      omega
    · by_cases hPb : pfx (wrap b) s
      · obtain ⟨s', hs'⟩ := (pfx_iff _ _).1 hPb
        subst hs'
        rw [replaceAll_skip_wrap ba bb hab s' (wrap v)]
        rw [replaceAll_pos (wrap_ne_nil b) _ (wrap w)]
        rw [replaceAll_pos (wrap_ne_nil b) s' (wrap w)]
        rw [replaceAll_skip_wrap ba bw haw (replaceAll s' (wrap b) (wrap w)) (wrap v)]
        congr 1
        apply ih
        simp only [List.length_append, wrap, List.length_cons] at hs ⊢
        omega
      · cases s with
        | nil => simp [replaceAll_nil]
        | cons c t =>
          rw [replaceAll_neg hPa (wrap v), replaceAll_neg hPb (wrap w)]
          rw [replaceAll_neg (not_pfx_replaceAll bb hPb) (wrap w)]
          rw [replaceAll_neg (not_pfx_replaceAll ba hPa) (wrap v)]
          congr 1
          apply ih
          simp only [List.length_cons] at hs
          omega

theorem replaceAll_comm {a v b w : Str} (hab : a ≠ b) (haw : a ≠ w) (hbv : b ≠ v)
    (ba : bfree a) (bb : bfree b) (bv : bfree v) (bw : bfree w) (s : Str) :
    replaceAll (replaceAll s (wrap a) (wrap v)) (wrap b) (wrap w) =
      replaceAll (replaceAll s (wrap b) (wrap w)) (wrap a) (wrap v) :=
  replaceAll_comm_aux hab haw hbv ba bb bv bw s.length s le_rfl

theorem stepsCompat_symm : ∀ {x y : Str × Str}, StepsCompat x y → StepsCompat y x :=
  fun h => ⟨Ne.symm h.1, h.2.2, h.2.1⟩

theorem applySteps_perm {l l' : List (Str × Str)} (hp : l.Perm l') :
    (∀ x ∈ l, StepOk x) → l.Pairwise StepsCompat →
    ∀ t, applySteps l t = applySteps l' t := by
  induction hp with
  | nil => intro _ _ t; rfl
  | cons x h ih =>
    intro hok hpw t
    exact ih (fun y hy => hok y (List.mem_cons_of_mem x hy))
      ((List.pairwise_cons.1 hpw).2) (replaceAll t (wrap x.1) (wrap x.2))
  | swap x y l =>
    intro hok hpw t
    show applySteps l (replaceAll (replaceAll t (wrap y.1) (wrap y.2)) (wrap x.1) (wrap x.2)) =
      applySteps l (replaceAll (replaceAll t (wrap x.1) (wrap x.2)) (wrap y.1) (wrap y.2))
    congr 1
    have hyx : StepsCompat y x := (List.pairwise_cons.1 hpw).1 x (List.mem_cons_self x l)
    have hoky : StepOk y := hok y (List.mem_cons_self y (x :: l))
    have hokx : StepOk x := hok x (List.mem_cons_of_mem y (List.mem_cons_self x l))
    exact replaceAll_comm hyx.1 hyx.2.1 hyx.2.2 hoky.1 hokx.1 hoky.2 hokx.2 t
  | trans h1 h2 ih1 ih2 =>
    intro hok hpw t
    rw [ih1 hok hpw t]
    exact ih2 (fun x hx => hok x (h1.mem_iff.2 hx))
      ((h1.pairwise_iff fun h => stepsCompat_symm h).1 hpw) t

/-! ### The engine as a list of replacement steps -/

theorem slotStep_eq_applySteps (p s : Nat) (r : Rec) (t : Str) :
    slotStep p r s t = applySteps (slotSteps p s r) t := by
  unfold slotStep slotSteps
  cases getf r (playerKey s) with
  | none => rfl
  | some v =>
    by_cases h13 : s = 1 ∨ s = 3
    · simp only [if_pos h13]
      cases getf r (pairKey (s / 2 + 1)) with
      | none => rfl
      | some w => rfl
    · simp only [if_neg h13]
      rfl

theorem recStep_eq_applySteps (p : Nat) (r : Rec) (t : Str) :
    recStep p r t = applySteps (recSteps p r) t := by
  unfold recStep recSteps
  rw [slotStep_eq_applySteps p 1, slotStep_eq_applySteps p 2, slotStep_eq_applySteps p 3,
    slotStep_eq_applySteps p 4]
  simp [applySteps, List.foldl_append]

theorem phaseAux_eq_applySteps : ∀ (rs : List Rec) (p : Nat) (t : Str),
    phaseAux p rs t = applySteps (stepsAux p rs) t
  | [], _, _ => rfl
  | r :: rs, p, t => by
    show phaseAux (p + 1) rs (recStep p r t) = applySteps (recSteps p r ++ stepsAux (p + 1) rs) t
    rw [phaseAux_eq_applySteps rs (p + 1), recStep_eq_applySteps]
    simp [applySteps, List.foldl_append]

/-! ### Decimal rendering -/

theorem natStrF_digits : ∀ (f n : Nat), n < f → ∀ c ∈ natStrF f n, ∃ d, d < 10 ∧ c = digitChar d := by
  intro f
  induction f with
  | zero => intro n h; exact absurd h (Nat.not_lt_zero n)
  | succ f ih =>
    intro n hn c hc
    by_cases h10 : n < 10
    · simp only [natStrF, if_pos h10, List.mem_singleton] at hc
      exact ⟨n, h10, hc⟩
    · simp only [natStrF, if_neg h10] at hc
      rcases List.mem_append.1 hc with h1 | h1
      · have hdiv : n / 10 < f := by
          have h2 := Nat.div_lt_self (show 0 < n by omega) (show 1 < 10 by omega)
          omega
        exact ih (n / 10) hdiv c h1
      · exact ⟨n % 10, Nat.mod_lt _ (by omega), by simpa using h1⟩

theorem natStr_digits {n : Nat} {c : Char} (hc : c ∈ natStr n) : ∃ d, d < 10 ∧ c = digitChar d :=
  natStrF_digits (n + 1) n (by omega) c hc

theorem digit_facts : ∀ d, d < 10 → digitChar d ≠ '>' ∧ digitChar d ≠ '<' ∧
    digitChar d ≠ 'L' ∧ digitChar d ≠ 'o' ∧ digitChar d ≠ 'M' := by decide

theorem digitChar_inj10 : ∀ a, a < 10 → ∀ b, b < 10 → digitChar a = digitChar b → a = b := by decide

theorem bfree_natStr (n : Nat) : bfree (natStr n) := by
  apply bfree_of_parts
  · intro hm
    obtain ⟨d, hd, he⟩ := natStr_digits hm
    exact (digit_facts d hd).1 he.symm
  · intro hm
    obtain ⟨d, hd, he⟩ := natStr_digits hm
    exact (digit_facts d hd).2.1 he.symm

theorem natStrF_congr : ∀ (f₁ : Nat) {f₂ n : Nat}, n < f₁ → n < f₂ →
    natStrF f₁ n = natStrF f₂ n := by
  intro f₁
  induction f₁ with
  | zero => intro f₂ n h _; exact absurd h (Nat.not_lt_zero n)
  | succ f ih =>
    intro f₂ n h1 h2
    cases f₂ with
    | zero => exact absurd h2 (Nat.not_lt_zero n)
    | succ f₂' =>
      by_cases h10 : n < 10
      · simp only [natStrF, if_pos h10]
      · simp only [natStrF, if_neg h10]
        congr 1
        have hd := Nat.div_lt_self (show 0 < n by omega) (show 1 < 10 by omega)
        exact @ih f₂' (n / 10) (by omega) (by omega)

theorem natStr_eq (n : Nat) :
    natStr n = if n < 10 then [digitChar n] else natStr (n / 10) ++ [digitChar (n % 10)] := by
  by_cases h10 : n < 10
  · simp only [natStr, natStrF, if_pos h10]
  · simp only [natStr, natStrF, if_neg h10]
    congr 1
    have hd := Nat.div_lt_self (show 0 < n by omega) (show 1 < 10 by omega)
    show natStrF n (n / 10) = natStrF (n / 10 + 1) (n / 10)
    exact @natStrF_congr n (n / 10 + 1) (n / 10) (by omega) (by omega)

theorem natStr_ne_nil (n : Nat) : natStr n ≠ [] := by
  rw [natStr_eq n]
  by_cases h10 : n < 10 <;> simp [h10]

theorem natStr_inj : ∀ {m : Nat}, ∀ {n : Nat}, natStr m = natStr n → m = n := by
  intro m
  induction m using Nat.strong_induction_on with
  | _ m ih =>
    intro n h
    rw [natStr_eq m, natStr_eq n] at h
    by_cases hm : m < 10 <;> by_cases hn : n < 10
    · simp only [if_pos hm, if_pos hn, List.cons.injEq, and_true] at h
      exact digitChar_inj10 m hm n hn h
    · simp only [if_pos hm, if_neg hn] at h
      have hl := congrArg List.length h
      simp only [List.length_singleton, List.length_append, List.length_cons,
        List.length_nil] at hl
      have : (natStr (n / 10)).length = 0 := by omega
      exact absurd (List.eq_nil_of_length_eq_zero this) (natStr_ne_nil (n / 10))
    · simp only [if_neg hm, if_pos hn] at h
      have hl := congrArg List.length h
      simp only [List.length_singleton, List.length_append, List.length_cons,
        List.length_nil] at hl
      have : (natStr (m / 10)).length = 0 := by omega
      exact absurd (List.eq_nil_of_length_eq_zero this) (natStr_ne_nil (m / 10))
    · simp only [if_neg hm, if_neg hn] at h
      obtain ⟨h1, h2⟩ := List.append_inj' h (by simp)
      have hd := Nat.div_lt_self (show 0 < m by omega) (show 1 < 10 by omega)
      have e1 : m / 10 = n / 10 := ih (m / 10) hd h1
      have e2 : m % 10 = n % 10 :=
        digitChar_inj10 (m % 10) (Nat.mod_lt _ (by omega)) (n % 10) (Nat.mod_lt _ (by omega))
          (by simpa using h2)
      omega

/-! ### Token structure -/

theorem bfree_midPlayer (n : Nat) : bfree (midPlayer n) := by
  rw [midPlayer, bfree_append]
  exact ⟨by decide, bfree_natStr n⟩

theorem bfree_midPair (k : Nat) : bfree (midPair k) := by
  rw [midPair, bfree_append]
  exact ⟨by decide, bfree_natStr k⟩

theorem midPlayer_inj {m n : Nat} (h : midPlayer m = midPlayer n) : m = n := by
  rw [midPlayer, midPlayer] at h
  exact natStr_inj (List.append_cancel_left h)

theorem midPair_inj {m n : Nat} (h : midPair m = midPair n) : m = n := by
  rw [midPair, midPair] at h
  exact natStr_inj (List.append_cancel_left h)

theorem midPlayer_ne_midPair (m k : Nat) : midPlayer m ≠ midPair k := by
  intro h
  rw [show midPlayer m = 'P' :: 'L' :: ("AYER".data ++ natStr m) from rfl,
    show midPair k = 'P' :: 'a' :: ("ir No".data ++ natStr k) from rfl] at h
  injection h with h1 h2
  injection h2 with h3 h4
  exact absurd h3 (by decide)

theorem playerKey_inj {m n : Nat} (h : playerKey m = playerKey n) : m = n := by
  rw [playerKey, playerKey] at h
  exact natStr_inj (List.append_cancel_left h)

theorem playerKey_ne_pairKey (m k : Nat) : playerKey m ≠ pairKey k := by
  intro h
  rw [show playerKey m = 'P' :: 'l' :: ("ayer".data ++ natStr m) from rfl,
    show pairKey k = 'P' :: 'a' :: ("ir No".data ++ natStr k) from rfl] at h
  injection h with h1 h2
  injection h2 with h3 h4
  exact absurd h3 (by decide)

theorem pairKey_inj {m n : Nat} (h : pairKey m = pairKey n) : m = n := by
  rw [pairKey, pairKey] at h
  exact natStr_inj (List.append_cancel_left h)

theorem occ_wrap_wrap {x y : Str} (hx : bfree x) (hy : bfree y) (h : occ (wrap x) (wrap y)) :
    x = y := by
  obtain ⟨u, v', huv⟩ := (occ_iff _ _).1 h
  cases u with
  | nil =>
    simp only [wrap, List.nil_append, List.cons_append, List.append_assoc,
      List.singleton_append, List.cons.injEq, true_and] at huv
    exact (lt_cancel (bfree_no_lt hy) (bfree_no_lt hx) huv).1.symm
  | cons u0 u =>
    simp only [wrap, List.cons_append, List.append_assoc, List.cons.injEq] at huv
    obtain ⟨h1, h2⟩ := huv
    have hgt : '>' ∈ y ++ ['<'] := by
      rw [h2]
      simp
    rcases List.mem_append.1 hgt with hm | hm
    · exact absurd hm (bfree_no_gt hy)
    · simp at hm

theorem occ_nogt_wrap {p : Str} (hpg : '>' ∉ p) (hpl : '<' ∉ p) (hp : p ≠ []) {v : Str}
    (h : occ p (wrap v)) : occ p v := by
  obtain ⟨u, t, hut⟩ := (occ_iff _ _).1 h
  cases u with
  | nil =>
    cases p with
    | nil => exact absurd rfl hp
    | cons p0 p' =>
      simp only [wrap, List.nil_append, List.cons_append, List.cons.injEq] at hut
      rw [hut.1] at hpg
      exact absurd (List.mem_cons_self _ _) hpg
  | cons u0 u' =>
    simp only [wrap, List.cons_append, List.cons.injEq] at hut
    obtain ⟨h1, h2⟩ := hut
    rcases t.eq_nil_or_concat with rfl | ⟨t', z, htz⟩
    · obtain ⟨p', c, rfl⟩ : ∃ p' c, p = p' ++ [c] := by
        rcases p.eq_nil_or_concat with rfl | ⟨p', c, hpc⟩
        · exact absurd rfl hp
        · exact ⟨p', c, by rw [hpc, List.concat_eq_append]⟩
      rw [List.append_nil, ← List.append_assoc] at h2
      obtain ⟨h3, h4⟩ := List.append_inj' h2 (by simp)
      have hc : '<' = c := by simpa using h4
      exact absurd (List.mem_append_right p' (by rw [hc]; exact List.mem_singleton.2 rfl)) hpl
    · rw [htz, List.concat_eq_append,
        show u' ++ p ++ (t' ++ [z]) = (u' ++ p ++ t') ++ [z] from by simp] at h2
      obtain ⟨h3, h4⟩ := List.append_inj' h2 (by simp)
      exact (occ_iff p v).2 ⟨u', t', by simpa using h3⟩

theorem not_occ_playerTok_playerTok {m n : Nat} (h : m ≠ n) :
    ¬ occ (playerTok m) (playerTok n) := fun ho =>
  h (midPlayer_inj (occ_wrap_wrap (bfree_midPlayer m) (bfree_midPlayer n) ho))

theorem not_occ_pairTok_pairTok {m n : Nat} (h : m ≠ n) :
    ¬ occ (pairTok m) (pairTok n) := fun ho =>
  h (midPair_inj (occ_wrap_wrap (bfree_midPair m) (bfree_midPair n) ho))

theorem mem_playerTok_L (m : Nat) : 'L' ∈ playerTok m := by
  rw [show playerTok m = '>' :: ("PLAYER".data ++ (natStr m ++ ['<'])) from by
    simp [playerTok, wrap, midPlayer]]
  exact List.mem_cons_of_mem _ (List.mem_append_left _ (by decide))

theorem not_mem_pairTok_L (k : Nat) : 'L' ∉ pairTok k := by
  intro hm
  rw [show pairTok k = '>' :: ("Pair No".data ++ (natStr k ++ ['<'])) from by
    simp [pairTok, wrap, midPair]] at hm
  rcases List.mem_cons.1 hm with h | h
  · exact absurd h (by decide)
  rcases List.mem_append.1 h with h | h
  · exact absurd h (by decide)
  rcases List.mem_append.1 h with h | h
  · obtain ⟨d, hd, he⟩ := natStr_digits h
    exact (digit_facts d hd).2.2.1 he.symm
  · exact absurd h (by decide)

theorem mem_pairTok_o (k : Nat) : 'o' ∈ pairTok k := by
  rw [show pairTok k = '>' :: ("Pair No".data ++ (natStr k ++ ['<'])) from by
    simp [pairTok, wrap, midPair]]
  exact List.mem_cons_of_mem _ (List.mem_append_left _ (by decide))

theorem not_mem_playerTok_o (n : Nat) : 'o' ∉ playerTok n := by
  intro hm
  rw [show playerTok n = '>' :: ("PLAYER".data ++ (natStr n ++ ['<'])) from by
    simp [playerTok, wrap, midPlayer]] at hm
  rcases List.mem_cons.1 hm with h | h
  · exact absurd h (by decide)
  rcases List.mem_append.1 h with h | h
  · exact absurd h (by decide)
  rcases List.mem_append.1 h with h | h
  · obtain ⟨d, hd, he⟩ := natStr_digits h
    exact (digit_facts d hd).2.2.2.1 he.symm
  · exact absurd h (by decide)

theorem not_occ_playerTok_pairTok (m k : Nat) : ¬ occ (playerTok m) (pairTok k) := fun h =>
  not_mem_pairTok_L k (occ_mem h 'L' (mem_playerTok_L m))

theorem not_occ_pairTok_playerTok (k n : Nat) : ¬ occ (pairTok k) (playerTok n) := fun h =>
  not_mem_playerTok_o n (occ_mem h 'o' (mem_pairTok_o k))

theorem playerTok_ne_pairTok (m k : Nat) : playerTok m ≠ pairTok k := by
  intro h
  rw [playerTok, pairTok] at h
  simp only [wrap] at h
  have h2 := (List.append_inj' h (by simp)).1
  injection h2 with _ h3
  exact midPlayer_ne_midPair m k h3

/-! ### Tokens never occur in clean values -/

theorem pfx_midPlayer (n : Nat) : pfx ("PLAYER".data) (midPlayer n) := by
  rw [midPlayer]
  exact pfx_self_append _ _

theorem pfx_midPair (k : Nat) : pfx ("Pair No".data) (midPair k) := by
  rw [midPair]
  exact pfx_self_append _ _

theorem not_occ_playerTok_wrap {n : Nat} {v : Str} (hv : bfree v) (htf : tokenFree v) :
    ¬ occ (playerTok n) (wrap v) := by
  intro h
  have he : midPlayer n = v := occ_wrap_wrap (bfree_midPlayer n) hv h
  exact htf.1 (he ▸ occ_of_pfx (pfx_midPlayer n))

theorem not_occ_pairTok_wrap {k : Nat} {v : Str} (hv : bfree v) (htf : tokenFree v) :
    ¬ occ (pairTok k) (wrap v) := by
  intro h
  have he : midPair k = v := occ_wrap_wrap (bfree_midPair k) hv h
  exact htf.2.1 (he ▸ occ_of_pfx (pfx_midPair k))

theorem not_occ_nameTok_wrap {v : Str} (htf : tokenFree v) : ¬ occ nameTok (wrap v) := by
  intro h
  exact htf.2.2 (occ_nogt_wrap (by decide) (by decide) (by decide) h)

theorem ne_of_tokenFree_midPlayer {n : Nat} {v : Str} (htf : tokenFree v) :
    midPlayer n ≠ v := by
  intro he
  exact htf.1 (he ▸ occ_of_pfx (pfx_midPlayer n))

theorem ne_of_tokenFree_midPair {k : Nat} {v : Str} (htf : tokenFree v) : midPair k ≠ v := by
  intro he
  exact htf.2.1 (he ▸ occ_of_pfx (pfx_midPair k))

/-! ### Record lookups -/

theorem getf_mem : ∀ {r : Rec} {k v : Str}, getf r k = some v → (k, v) ∈ r := by
  intro r
  induction r with
  | nil => intro k v h; simp [getf] at h
  | cons kv r ih =>
    intro k v h
    obtain ⟨k', v'⟩ := kv
    by_cases he : k' = k
    · simp only [getf, if_pos he] at h
      injection h with h1
      rw [← h1, he]
      exact List.mem_cons_self _ _
    · simp only [getf, if_neg he] at h
      exact List.mem_cons_of_mem _ (ih h)

theorem getf_eraseKey_self (k : Str) : ∀ (r : Rec), getf (eraseKey k r) k = none := by
  intro r
  induction r with
  | nil => rfl
  | cons kv r ih =>
    obtain ⟨k', v'⟩ := kv
    by_cases he : k' = k
    · simp only [eraseKey, if_pos he]
      exact ih
    · simp only [eraseKey, if_neg he, getf, if_neg he]
      exact ih

theorem getf_eraseKey_ne {k key : Str} (hne : k ≠ key) : ∀ (r : Rec),
    getf (eraseKey k r) key = getf r key := by
  intro r
  induction r with
  | nil => rfl
  | cons kv r ih =>
    obtain ⟨k', v'⟩ := kv
    by_cases he : k' = k
    · simp only [eraseKey, if_pos he, getf, if_neg (he ▸ hne)]
      exact ih
    · simp only [eraseKey, if_neg he, getf]
      by_cases he2 : k' = key
      · simp [if_pos he2]
      · simp only [if_neg he2]
        exact ih

/-! ### Slot steps that leave the text untouched -/

theorem slotStep_skip {p s : Nat} {r : Rec} (h : getf r (playerKey s) = none) (t : Str) :
    slotStep p r s t = t := by
  unfold slotStep
  rw [h]

theorem slotStep_id {p s : Nat} {r : Rec} {T : Str}
    (hpl : getf r (playerKey s) = none ∨ ¬ occ (playerTok (p * 4 + s)) T)
    (hpr : (s = 1 ∨ s = 3) → getf r (playerKey s) ≠ none →
      (getf r (pairKey (s / 2 + 1)) = none ∨ ¬ occ (pairTok (p * 2 + s / 2 + 1)) T)) :
    slotStep p r s T = T := by
  cases hg : getf r (playerKey s) with
  | none => exact slotStep_skip hg T
  | some v =>
    unfold slotStep
    rw [hg]
    have htok : ¬ occ (playerTok (p * 4 + s)) T := by
      rcases hpl with h | h
      · rw [hg] at h
        exact absurd h (by simp)
      · exact h
    simp only [replaceAll_of_not_occ (wrap v) htok]
    by_cases h13 : s = 1 ∨ s = 3
    · simp only [if_pos h13]
      rcases hpr h13 (by simp [hg]) with hnone | hocc
      · rw [hnone]
      · cases hg2 : getf r (pairKey (s / 2 + 1)) with
        | none => rfl
        | some w => exact replaceAll_of_not_occ (wrap w) hocc
    · simp only [if_neg h13]

theorem recStep_id {p : Nat} {r : Rec} {T : Str} (h : RecCond p r T) : recStep p r T = T := by
  have h1 := h 1 (by omega) (by omega)
  have h2 := h 2 (by omega) (by omega)
  have h3 := h 3 (by omega) (by omega)
  have h4 := h 4 (by omega) (by omega)
  unfold recStep
  rw [slotStep_id h1.1 h1.2, slotStep_id h2.1 h2.2, slotStep_id h3.1 h3.2,
    slotStep_id h4.1 h4.2]

theorem phaseAux_id : ∀ (rs : List Rec) (p₀ : Nat) (T : Str),
    (∀ i, i < rs.length → RecCond (p₀ + i) (rs.getD i []) T) → phaseAux p₀ rs T = T
  | [], _, _, _ => rfl
  | r :: rs, p₀, T, h => by
    show phaseAux (p₀ + 1) rs (recStep p₀ r T) = T
    rw [recStep_id (by simpa using h 0 (by simp))]
    exact phaseAux_id rs (p₀ + 1) T (fun i hi => by
      have h2 := h (i + 1) (by simpa using Nat.succ_lt_succ hi)
      rw [show p₀ + 1 + i = p₀ + (i + 1) from by omega]
      simpa using h2)

/-! ### The Grouper -/

theorem chunks4_flatten {α : Type} : ∀ (l : List α), (chunks4 l).flatten = l := by
  intro l
  induction l using chunks4.induct with
  | case1 => rfl
  | case2 a => rfl
  | case3 a b => rfl
  | case4 a b c => rfl
  | case5 a b c d rest ih =>
    show ([a, b, c, d] :: chunks4 rest).flatten = _
    simp only [List.flatten_cons, ih]
    rfl

theorem chunks4_length {α : Type} : ∀ (l : List α), (chunks4 l).length = (l.length + 3) / 4 := by
  intro l
  induction l using chunks4.induct with
  | case1 => simp [chunks4]
  | case2 a => simp [chunks4]
  | case3 a b => simp [chunks4]
  | case4 a b c => simp [chunks4]
  | case5 a b c d rest ih =>
    show (chunks4 rest).length + 1 = _
    rw [ih]
    simp only [List.length_cons]
    omega

theorem chunks4_full {α : Type} : ∀ (l : List α) (i : Nat), i < l.length / 4 →
    ((chunks4 l).getD i []).length = 4 := by
  intro l
  induction l using chunks4.induct with
  | case1 => intro i hi; simp only [List.length_nil] at hi; omega
  | case2 a => intro i hi; simp only [List.length_cons, List.length_nil] at hi; omega
  | case3 a b => intro i hi; simp only [List.length_cons, List.length_nil] at hi; omega
  | case4 a b c => intro i hi; simp only [List.length_cons, List.length_nil] at hi; omega
  | case5 a b c d rest ih =>
    intro i hi
    cases i with
    | zero => rfl
    | succ i =>
      have hi2 : i < rest.length / 4 := by
        simp only [List.length_cons] at hi
        omega
      rw [show chunks4 (a :: b :: c :: d :: rest) = [a, b, c, d] :: chunks4 rest from rfl,
        List.getD_cons_succ]
      exact ih i hi2

theorem chunks4_ne_nil {α : Type} : ∀ (l : List α), l ≠ [] → chunks4 l ≠ [] := by
  intro l
  induction l using chunks4.induct with
  | case1 => intro h; exact absurd rfl h
  | case2 a => intro _; simp [chunks4]
  | case3 a b => intro _; simp [chunks4]
  | case4 a b c => intro _; simp [chunks4]
  | case5 a b c d rest _ => intro _; simp [chunks4]

theorem chunks4_last {α : Type} : ∀ (l : List α), l ≠ [] →
    ∃ g, (chunks4 l).getLast? = some g ∧
      g.length = if l.length % 4 = 0 then 4 else l.length % 4 := by
  intro l
  induction l using chunks4.induct with
  | case1 => intro h; exact absurd rfl h
  | case2 a => intro _; exact ⟨[a], rfl, by simp⟩
  | case3 a b => intro _; exact ⟨[a, b], rfl, by simp⟩
  | case4 a b c => intro _; exact ⟨[a, b, c], rfl, by simp⟩
  | case5 a b c d rest ih =>
    intro _
    rcases eq_or_ne rest [] with rfl | hne
    · exact ⟨[a, b, c, d], rfl, by simp⟩
    · obtain ⟨g, hg, hlen⟩ := ih hne
      refine ⟨g, ?_, ?_⟩
      · rw [show chunks4 (a :: b :: c :: d :: rest) = [a, b, c, d] :: chunks4 rest from rfl]
        cases hc : chunks4 rest with
        | nil => exact absurd hc (chunks4_ne_nil rest hne)
        | cons y ys =>
          rw [List.getLast?_cons_cons]
          rw [hc] at hg
          exact hg
      · rw [hlen]
        by_cases hz : rest.length % 4 = 0
        · rw [if_pos hz, if_pos (by simp only [List.length_cons]; omega)]
        · rw [if_neg hz, if_neg (by simp only [List.length_cons]; omega)]
          simp only [List.length_cons]
          omega

/-- C5: for every roster of N records the Grouper (`par_chunks(4)`) produces
exactly the ceiling of N/4 groups (zero for an empty roster, with no error),
every group before the last has size 4 (in particular the first floor(N/4)
groups when N is not a multiple of 4, and all of them when it is), the last
group has size N mod 4 (or 4 when N mod 4 = 0), and concatenating the groups
in order reproduces the original record sequence exactly. -/
theorem c5_grouper (l : List Rec) :
    (chunks4 l).length = (l.length + 3) / 4 ∧
      (∀ i, i < l.length / 4 → ((chunks4 l).getD i []).length = 4) ∧
      (l ≠ [] → ∃ g, (chunks4 l).getLast? = some g ∧
        g.length = if l.length % 4 = 0 then 4 else l.length % 4) ∧
      (chunks4 l).flatten = l :=
  ⟨chunks4_length l, chunks4_full l, chunks4_last l, chunks4_flatten l⟩

/-- C5 witness: the Grouper facts evaluated on a concrete roster of six
records, discharging the hypotheses of `c5_grouper` at that input. -/
theorem c5_grouper_witness :
    ((chunks4 (List.replicate 6 ([] : Rec))).getD 0 []).length = 4 ∧
      (∃ g, (chunks4 (List.replicate 6 ([] : Rec))).getLast? = some g ∧
        g.length = if (List.replicate 6 ([] : Rec)).length % 4 = 0 then 4
          else (List.replicate 6 ([] : Rec)).length % 4) :=
  ⟨(c5_grouper (List.replicate 6 ([] : Rec))).2.1 0 (by decide),
    (c5_grouper (List.replicate 6 ([] : Rec))).2.2.1 (by decide)⟩

/-- C6 counterexample: the claim says the engine errors when some record's
required field set is empty; the code only checks that the chunk itself is
non-empty, so a one-record group whose record is the empty map succeeds. -/
theorem c6_counterexample :
    ([] : Rec) ∈ [([] : Rec)] ∧
      replace_svg (">x<".data) [([] : Rec)] ("T".data) = some (">x<".data) :=
  ⟨List.mem_cons_self _ _, by decide⟩

/-- C6 amended: the Substitution Engine returns an error if and only if the
group it is given is empty; every non-empty group (regardless of its
records' field sets) yields a substituted text successfully. -/
theorem c6_empty_group_error (svg : Str) (groups : List Rec) (name : Str) :
    replace_svg svg groups name = none ↔ groups = [] := by
  unfold replace_svg
  by_cases h : groups = [] <;> simp [h]

/-- C9: the substituted document text produced by `process_group` does not
depend on the group index; the index only determines the artifact name
`base_index.pdf`. -/
theorem c9_index_independent (svg : Str) (group : List Rec) (name base : Str)
    (g1 g2 : Nat) :
    (process_group svg group name base g1).map Prod.fst =
        (process_group svg group name base g2).map Prod.fst ∧
      (process_group svg group name base g1).map Prod.snd =
        (replace_svg svg group name).map (fun _ => outName base g1) := by
  unfold process_group
  cases replace_svg svg group name <;> simp

/-- C7: running the Substitution Engine with a non-empty group whose records
supply no player field whose token (nor, when the player is supplied, pair
label whose token) occurs in the template returns the template unchanged
except that every occurrence of the bare token `NAME` is replaced by the
tournament name. -/
theorem c7_unmatched_only_name (T : Str) (groups : List Rec) (name : Str)
    (hne : groups ≠ [])
    (h : ∀ i, i < groups.length → RecCond i (groups.getD i []) T) :
    replace_svg T groups name = some (replaceAll T nameTok name) := by
  unfold replace_svg
  rw [if_neg hne, phaseAux_id groups 0 T (fun i hi => by simpa using h i hi)]

/-- C7 witness: a concrete group supplying only `Player1`, whose token does
not occur in the template, leaves everything but `NAME` untouched. -/
theorem c7_witness :
    replace_svg (">PLAYER2<NAME".data) [[(playerKey 1, "A".data)]] ("Cup".data) =
      some (replaceAll (">PLAYER2<NAME".data) nameTok ("Cup".data)) :=
  c7_unmatched_only_name _ _ _ (by decide) (by
    intro i hi
    have hi1 : i = 0 := by
      simp only [List.length_cons, List.length_nil] at hi
      omega
    subst hi1
    intro s hs h1
    interval_cases s <;> exact ⟨by decide, by decide⟩)

/-! ### Pair substitution requires the player field (C10) -/

theorem recStep_erase_pair1 {p : Nat} {r : Rec} (h1 : getf r (playerKey 1) = none) (t : Str) :
    recStep p (eraseKey (pairKey 1) r) t = recStep p r t := by
  have e1 : ∀ s : Nat, getf (eraseKey (pairKey 1) r) (playerKey s) = getf r (playerKey s) :=
    fun s => getf_eraseKey_ne (fun he => playerKey_ne_pairKey s 1 he.symm) r
  have e2 : getf (eraseKey (pairKey 1) r) (pairKey 2) = getf r (pairKey 2) :=
    getf_eraseKey_ne (fun he => absurd (pairKey_inj he) (by omega)) r
  have slot1 : ∀ t', slotStep p (eraseKey (pairKey 1) r) 1 t' = slotStep p r 1 t' := by
    intro t'
    rw [slotStep_skip (by rw [e1 1]; exact h1), slotStep_skip h1]
  have slot2 : ∀ t', slotStep p (eraseKey (pairKey 1) r) 2 t' = slotStep p r 2 t' := by
    intro t'
    unfold slotStep
    rw [e1 2]
    cases getf r (playerKey 2) with
    | none => rfl
    | some v => simp only [if_neg (by decide : ¬((2 : Nat) = 1 ∨ (2 : Nat) = 3))]
  have slot3 : ∀ t', slotStep p (eraseKey (pairKey 1) r) 3 t' = slotStep p r 3 t' := by
    intro t'
    unfold slotStep
    rw [e1 3]
    cases getf r (playerKey 3) with
    | none => rfl
    | some v =>
      simp only [if_pos (by decide : (3 : Nat) = 1 ∨ (3 : Nat) = 3),
        show (3 : Nat) / 2 + 1 = 2 from rfl, e2]
  have slot4 : ∀ t', slotStep p (eraseKey (pairKey 1) r) 4 t' = slotStep p r 4 t' := by
    intro t'
    unfold slotStep
    rw [e1 4]
    cases getf r (playerKey 4) with
    | none => rfl
    | some v => simp only [if_neg (by decide : ¬((4 : Nat) = 1 ∨ (4 : Nat) = 3))]
  unfold recStep
  rw [slot1, slot2, slot3, slot4]

theorem recStep_erase_pair2 {p : Nat} {r : Rec} (h3 : getf r (playerKey 3) = none) (t : Str) :
    recStep p (eraseKey (pairKey 2) r) t = recStep p r t := by
  have e1 : ∀ s : Nat, getf (eraseKey (pairKey 2) r) (playerKey s) = getf r (playerKey s) :=
    fun s => getf_eraseKey_ne (fun he => playerKey_ne_pairKey s 2 he.symm) r
  have e2 : getf (eraseKey (pairKey 2) r) (pairKey 1) = getf r (pairKey 1) :=
    getf_eraseKey_ne (fun he => absurd (pairKey_inj he) (by omega)) r
  have slot1 : ∀ t', slotStep p (eraseKey (pairKey 2) r) 1 t' = slotStep p r 1 t' := by
    intro t'
    unfold slotStep
    rw [e1 1]
    cases getf r (playerKey 1) with
    | none => rfl
    | some v =>
      simp only [if_pos (by decide : (1 : Nat) = 1 ∨ (1 : Nat) = 3),
        show (1 : Nat) / 2 + 1 = 1 from rfl, e2]
  have slot2 : ∀ t', slotStep p (eraseKey (pairKey 2) r) 2 t' = slotStep p r 2 t' := by
    intro t'
    unfold slotStep
    rw [e1 2]
    cases getf r (playerKey 2) with
    | none => rfl
    | some v => simp only [if_neg (by decide : ¬((2 : Nat) = 1 ∨ (2 : Nat) = 3))]
  have slot3 : ∀ t', slotStep p (eraseKey (pairKey 2) r) 3 t' = slotStep p r 3 t' := by
    intro t'
    rw [slotStep_skip (by rw [e1 3]; exact h3), slotStep_skip h3]
  have slot4 : ∀ t', slotStep p (eraseKey (pairKey 2) r) 4 t' = slotStep p r 4 t' := by
    intro t'
    unfold slotStep
    rw [e1 4]
    cases getf r (playerKey 4) with
    | none => rfl
    | some v => simp only [if_neg (by decide : ¬((4 : Nat) = 1 ∨ (4 : Nat) = 3))]
  unfold recStep
  rw [slot1, slot2, slot3, slot4]

theorem modifyRec_ne_nil {f : Rec → Rec} {p : Nat} {l : List Rec} (h : l ≠ []) :
    modifyRec f p l ≠ [] := by
  cases l with
  | nil => exact absurd rfl h
  | cons r rs => cases p <;> simp [modifyRec]

theorem phaseAux_modify_pair1 : ∀ (rs : List Rec) (q p₀ : Nat) (t : Str),
    getf (rs.getD q []) (playerKey 1) = none →
    phaseAux p₀ (modifyRec (eraseKey (pairKey 1)) q rs) t = phaseAux p₀ rs t := by
  intro rs
  induction rs with
  | nil => intro q p₀ t _; cases q <;> rfl
  | cons r rs ih =>
    intro q p₀ t h
    cases q with
    | zero =>
      show phaseAux (p₀ + 1) rs (recStep p₀ (eraseKey (pairKey 1) r) t) =
        phaseAux (p₀ + 1) rs (recStep p₀ r t)
      rw [recStep_erase_pair1 (by simpa using h) t]
    | succ q =>
      show phaseAux (p₀ + 1) (modifyRec (eraseKey (pairKey 1)) q rs) (recStep p₀ r t) =
        phaseAux (p₀ + 1) rs (recStep p₀ r t)
      exact ih q (p₀ + 1) (recStep p₀ r t) (by simpa using h)

theorem phaseAux_modify_pair2 : ∀ (rs : List Rec) (q p₀ : Nat) (t : Str),
    getf (rs.getD q []) (playerKey 3) = none →
    phaseAux p₀ (modifyRec (eraseKey (pairKey 2)) q rs) t = phaseAux p₀ rs t := by
  intro rs
  induction rs with
  | nil => intro q p₀ t _; cases q <;> rfl
  | cons r rs ih =>
    intro q p₀ t h
    cases q with
    | zero =>
      show phaseAux (p₀ + 1) rs (recStep p₀ (eraseKey (pairKey 2) r) t) =
        phaseAux (p₀ + 1) rs (recStep p₀ r t)
      rw [recStep_erase_pair2 (by simpa using h) t]
    | succ q =>
      show phaseAux (p₀ + 1) (modifyRec (eraseKey (pairKey 2)) q rs) (recStep p₀ r t) =
        phaseAux (p₀ + 1) rs (recStep p₀ r t)
      exact ih q (p₀ + 1) (recStep p₀ r t) (by simpa using h)

/-- C10: pair-label substitution is conditional on the matching player field,
record by record: for every group and every record position p, if that
record does not supply `Player1` (respectively `Player3`), then the output
is identical to the run in which that one record's `Pair No1` (respectively
`Pair No2`) bindings are removed — its pair label has no effect even when
supplied, so its pair token is left exactly as if no pair label existed,
regardless of what the other records of the group supply. -/
theorem c10_pair_conditional (T name : Str) (groups : List Rec) (p : Nat) :
    (getf (groups.getD p []) (playerKey 1) = none →
      replace_svg T (modifyRec (eraseKey (pairKey 1)) p groups) name =
        replace_svg T groups name) ∧
    (getf (groups.getD p []) (playerKey 3) = none →
      replace_svg T (modifyRec (eraseKey (pairKey 2)) p groups) name =
        replace_svg T groups name) := by
  constructor
  · intro h
    unfold replace_svg
    rcases eq_or_ne groups [] with rfl | hne
    · cases p <;> rfl
    · rw [if_neg hne, if_neg (modifyRec_ne_nil hne),
        phaseAux_modify_pair1 groups p 0 T h]
  · intro h
    unfold replace_svg
    rcases eq_or_ne groups [] with rfl | hne
    · cases p <;> rfl
    · rw [if_neg hne, if_neg (modifyRec_ne_nil hne),
        phaseAux_modify_pair2 groups p 0 T h]

/-- C10 witness: both parts applied to mixed two-record groups in which the
other record does supply the player field, discharging the hypotheses of
`c10_pair_conditional` at position 1. -/
theorem c10_witness :
    replace_svg (pairTok 3)
        (modifyRec (eraseKey (pairKey 1)) 1
          [[(playerKey 1, "A".data), (pairKey 1, "7".data)], [(pairKey 1, "9".data)]])
        ("T".data) =
      replace_svg (pairTok 3)
        [[(playerKey 1, "A".data), (pairKey 1, "7".data)], [(pairKey 1, "9".data)]]
        ("T".data) ∧
    replace_svg (pairTok 4)
        (modifyRec (eraseKey (pairKey 2)) 1
          [[(playerKey 3, "B".data), (pairKey 2, "8".data)], [(pairKey 2, "9".data)]])
        ("T".data) =
      replace_svg (pairTok 4)
        [[(playerKey 3, "B".data), (pairKey 2, "8".data)], [(pairKey 2, "9".data)]]
        ("T".data) :=
  ⟨(c10_pair_conditional (pairTok 3) ("T".data)
      [[(playerKey 1, "A".data), (pairKey 1, "7".data)], [(pairKey 1, "9".data)]] 1).1
      (by decide),
    (c10_pair_conditional (pairTok 4) ("T".data)
      [[(playerKey 3, "B".data), (pairKey 2, "8".data)], [(pairKey 2, "9".data)]] 1).2
      (by decide)⟩

/-! ### Slot steps that perform a replacement -/

theorem slotStep_hit {p s : Nat} {r : Rec} {v : Str} (h : getf r (playerKey s) = some v)
    (hs : ¬(s = 1 ∨ s = 3)) (t : Str) :
    slotStep p r s t = replaceAll t (playerTok (p * 4 + s)) (wrap v) := by
  unfold slotStep
  simp only [h]
  rw [if_neg hs]

theorem slotStep_hit_pair_none {p s : Nat} {r : Rec} {v : Str}
    (h : getf r (playerKey s) = some v) (hs : s = 1 ∨ s = 3)
    (hp : getf r (pairKey (s / 2 + 1)) = none) (t : Str) :
    slotStep p r s t = replaceAll t (playerTok (p * 4 + s)) (wrap v) := by
  unfold slotStep
  simp only [h]
  rw [if_pos hs]
  simp only [hp]

theorem slotStep_hit_pair {p s : Nat} {r : Rec} {v w : Str}
    (h : getf r (playerKey s) = some v) (hs : s = 1 ∨ s = 3)
    (hp : getf r (pairKey (s / 2 + 1)) = some w) (t : Str) :
    slotStep p r s t =
      replaceAll (replaceAll t (playerTok (p * 4 + s)) (wrap v))
        (pairTok (p * 2 + s / 2 + 1)) (wrap w) := by
  unfold slotStep
  simp only [h]
  rw [if_pos hs]
  simp only [hp]

/-- C3 counterexample: a keyed record whose `Player2` field is present but
blank does not leave the placeholder `>PLAYER2<` untouched; the program
substitutes the empty name and the output region becomes `><`. -/
theorem c3_counterexample :
    replace_svg (">PLAYER2<".data) [[(playerKey 2, [])]] ("T".data) = some ("><".data) ∧
      ("><".data : Str) ≠ ">PLAYER2<".data :=
  ⟨by decide, by decide⟩

/-- C3 amended: for every keyed record whose `Player2` field is present but
blank, the slot-2 player token of that record is replaced by the empty
bracketed value `><` rather than being retained. -/
theorem c3_blank_substitutes_empty (r : Rec) (name : Str)
    (h : getf r (playerKey 2) = some []) :
    replace_svg (playerTok 2) [r] name = some ('>' :: '<' :: []) := by
  have s1 : slotStep 0 r 1 (playerTok 2) = playerTok 2 :=
    slotStep_id (Or.inr (by decide)) (fun _ _ => Or.inr (by decide))
  have s2 : slotStep 0 r 2 (playerTok 2) = '>' :: '<' :: [] := by
    rw [slotStep_hit h (by decide) (playerTok 2),
      show (0 : Nat) * 4 + 2 = 2 from rfl,
      replaceAll_whole (by simp [playerTok, wrap]) (wrap [])]
    rfl
  have s3 : slotStep 0 r 3 ('>' :: '<' :: []) = '>' :: '<' :: [] :=
    slotStep_id (Or.inr (by decide)) (fun _ _ => Or.inr (by decide))
  have s4 : slotStep 0 r 4 ('>' :: '<' :: []) = '>' :: '<' :: [] :=
    slotStep_id (Or.inr (by decide)) (fun _ _ => Or.inr (by decide))
  unfold replace_svg
  rw [if_neg (by simp)]
  show some (replaceAll (recStep 0 r (playerTok 2)) nameTok name) = _
  unfold recStep
  rw [s1, s2, s3, s4, replaceAll_of_not_occ name (by decide)]

/-- C3 amended witness: the blank-field substitution evaluated on a concrete
record, discharging the hypothesis of `c3_blank_substitutes_empty`. -/
theorem c3_witness :
    replace_svg (playerTok 2) [[(playerKey 2, [])]] ("T".data) = some ('>' :: '<' :: []) :=
  c3_blank_substitutes_empty [(playerKey 2, [])] ("T".data) (by decide)

/-! ### Record and phase evaluation helpers -/

theorem getf_cons_self (k v : Str) (r : Rec) : getf ((k, v) :: r) k = some v := by
  show (if k = k then some v else getf r k) = some v
  rw [if_pos rfl]

theorem getf_cons_ne {k' k : Str} (h : k' ≠ k) (v' : Str) (r : Rec) :
    getf ((k', v') :: r) k = getf r k := by
  show (if k' = k then some v' else getf r k) = getf r k
  rw [if_neg h]

theorem phaseAux_append : ∀ (rs rs' : List Rec) (p : Nat) (t : Str),
    phaseAux p (rs ++ rs') t = phaseAux (p + rs.length) rs' (phaseAux p rs t)
  | [], rs', p, t => by simp [phaseAux]
  | r :: rs, rs', p, t => by
    show phaseAux (p + 1) (rs ++ rs') (recStep p r t) = _
    rw [phaseAux_append rs rs' (p + 1), show p + 1 + rs.length = p + (rs.length + 1) from by
      omega]
    rfl

theorem recStep_blank (p : Nat) (t : Str) : recStep p ([] : Rec) t = t := by
  unfold recStep
  rw [slotStep_skip (show getf ([] : Rec) (playerKey 1) = none from rfl),
    slotStep_skip (show getf ([] : Rec) (playerKey 2) = none from rfl),
    slotStep_skip (show getf ([] : Rec) (playerKey 3) = none from rfl),
    slotStep_skip (show getf ([] : Rec) (playerKey 4) = none from rfl)]

theorem phaseAux_blank : ∀ (k p : Nat) (t : Str), phaseAux p (List.replicate k []) t = t
  | 0, _, _ => rfl
  | k + 1, p, t => by
    show phaseAux (p + 1) (List.replicate k []) (recStep p [] t) = t
    rw [recStep_blank p t]
    exact phaseAux_blank k (p + 1) t

theorem replace_svg_pad (p : Nat) (r : Rec) (T name : Str) :
    replace_svg T (List.replicate p [] ++ [r]) name =
      some (replaceAll (recStep p r T) nameTok name) := by
  unfold replace_svg
  rw [if_neg (by simp)]
  congr 1
  rw [phaseAux_append (List.replicate p []) [r] 0 T, phaseAux_blank p 0 T]
  simp only [List.length_replicate, Nat.zero_add]
  rfl

theorem recStep_single (p s : Nat) (v : Str) (hs : s < 5) (h1 : 1 ≤ s) :
    recStep p [(playerKey s, v)] (playerTok (p * 4 + s)) = wrap v := by
  interval_cases s
  · have ga : getf [(playerKey 1, v)] (playerKey 1) = some v := getf_cons_self _ _ _
    have gp : getf [(playerKey 1, v)] (pairKey (1 / 2 + 1)) = none := by
      rw [getf_cons_ne (show playerKey 1 ≠ pairKey (1 / 2 + 1) by decide)]
      rfl
    have g2 : getf [(playerKey 1, v)] (playerKey 2) = none := by
      rw [getf_cons_ne (show playerKey 1 ≠ playerKey 2 by decide)]
      rfl
    have g3 : getf [(playerKey 1, v)] (playerKey 3) = none := by
      rw [getf_cons_ne (show playerKey 1 ≠ playerKey 3 by decide)]
      rfl
    have g4 : getf [(playerKey 1, v)] (playerKey 4) = none := by
      rw [getf_cons_ne (show playerKey 1 ≠ playerKey 4 by decide)]
      rfl
    unfold recStep
    rw [slotStep_hit_pair_none ga (by decide) gp,
      replaceAll_whole (by simp [playerTok, wrap]) (wrap v),
      slotStep_skip g2, slotStep_skip g3, slotStep_skip g4]
  · have ga : getf [(playerKey 2, v)] (playerKey 2) = some v := getf_cons_self _ _ _
    have g1 : getf [(playerKey 2, v)] (playerKey 1) = none := by
      rw [getf_cons_ne (show playerKey 2 ≠ playerKey 1 by decide)]
      rfl
    have g3 : getf [(playerKey 2, v)] (playerKey 3) = none := by
      rw [getf_cons_ne (show playerKey 2 ≠ playerKey 3 by decide)]
      rfl
    have g4 : getf [(playerKey 2, v)] (playerKey 4) = none := by
      rw [getf_cons_ne (show playerKey 2 ≠ playerKey 4 by decide)]
      rfl
    unfold recStep
    rw [slotStep_skip g1, slotStep_hit ga (by decide),
      replaceAll_whole (by simp [playerTok, wrap]) (wrap v),
      slotStep_skip g3, slotStep_skip g4]
  · have ga : getf [(playerKey 3, v)] (playerKey 3) = some v := getf_cons_self _ _ _
    have gp : getf [(playerKey 3, v)] (pairKey (3 / 2 + 1)) = none := by
      rw [getf_cons_ne (show playerKey 3 ≠ pairKey (3 / 2 + 1) by decide)]
      rfl
    have g1 : getf [(playerKey 3, v)] (playerKey 1) = none := by
      rw [getf_cons_ne (show playerKey 3 ≠ playerKey 1 by decide)]
      rfl
    have g2 : getf [(playerKey 3, v)] (playerKey 2) = none := by
      rw [getf_cons_ne (show playerKey 3 ≠ playerKey 2 by decide)]
      rfl
    have g4 : getf [(playerKey 3, v)] (playerKey 4) = none := by
      rw [getf_cons_ne (show playerKey 3 ≠ playerKey 4 by decide)]
      rfl
    unfold recStep
    rw [slotStep_skip g1, slotStep_skip g2,
      slotStep_hit_pair_none ga (by decide) gp,
      replaceAll_whole (by simp [playerTok, wrap]) (wrap v),
      slotStep_skip g4]
  · have ga : getf [(playerKey 4, v)] (playerKey 4) = some v := getf_cons_self _ _ _
    have g1 : getf [(playerKey 4, v)] (playerKey 1) = none := by
      rw [getf_cons_ne (show playerKey 4 ≠ playerKey 1 by decide)]
      rfl
    have g2 : getf [(playerKey 4, v)] (playerKey 2) = none := by
      rw [getf_cons_ne (show playerKey 4 ≠ playerKey 2 by decide)]
      rfl
    have g3 : getf [(playerKey 4, v)] (playerKey 3) = none := by
      rw [getf_cons_ne (show playerKey 4 ≠ playerKey 3 by decide)]
      rfl
    unfold recStep
    rw [slotStep_skip g1, slotStep_skip g2, slotStep_skip g3,
      slotStep_hit ga (by decide),
      replaceAll_whole (by simp [playerTok, wrap]) (wrap v)]

theorem recStep_pair1 (p : Nat) (v w : Str) :
    recStep p [(playerKey 1, v), (pairKey 1, w)] (pairTok (p * 2 + 1)) = wrap w := by
  have ga : getf [(playerKey 1, v), (pairKey 1, w)] (playerKey 1) = some v :=
    getf_cons_self _ _ _
  have gp : getf [(playerKey 1, v), (pairKey 1, w)] (pairKey (1 / 2 + 1)) = some w := by
    rw [getf_cons_ne (show playerKey 1 ≠ pairKey (1 / 2 + 1) by decide)]
    exact getf_cons_self _ _ _
  have g2 : getf [(playerKey 1, v), (pairKey 1, w)] (playerKey 2) = none := by
    rw [getf_cons_ne (show playerKey 1 ≠ playerKey 2 by decide),
      getf_cons_ne (show pairKey 1 ≠ playerKey 2 by decide)]
    rfl
  have g3 : getf [(playerKey 1, v), (pairKey 1, w)] (playerKey 3) = none := by
    rw [getf_cons_ne (show playerKey 1 ≠ playerKey 3 by decide),
      getf_cons_ne (show pairKey 1 ≠ playerKey 3 by decide)]
    rfl
  have g4 : getf [(playerKey 1, v), (pairKey 1, w)] (playerKey 4) = none := by
    rw [getf_cons_ne (show playerKey 1 ≠ playerKey 4 by decide),
      getf_cons_ne (show pairKey 1 ≠ playerKey 4 by decide)]
    rfl
  unfold recStep
  rw [slotStep_hit_pair ga (by decide) gp,
    replaceAll_of_not_occ (wrap v) (not_occ_playerTok_pairTok (p * 4 + 1) (p * 2 + 1)),
    show p * 2 + 1 / 2 + 1 = p * 2 + 1 from by omega,
    replaceAll_whole (by simp [pairTok, wrap]) (wrap w),
    slotStep_skip g2, slotStep_skip g3, slotStep_skip g4]

theorem recStep_pair2 (p : Nat) (v w : Str) :
    recStep p [(playerKey 3, v), (pairKey 2, w)] (pairTok (p * 2 + 2)) = wrap w := by
  have ga : getf [(playerKey 3, v), (pairKey 2, w)] (playerKey 3) = some v :=
    getf_cons_self _ _ _
  have gp : getf [(playerKey 3, v), (pairKey 2, w)] (pairKey (3 / 2 + 1)) = some w := by
    rw [getf_cons_ne (show playerKey 3 ≠ pairKey (3 / 2 + 1) by decide)]
    exact getf_cons_self _ _ _
  have g1 : getf [(playerKey 3, v), (pairKey 2, w)] (playerKey 1) = none := by
    rw [getf_cons_ne (show playerKey 3 ≠ playerKey 1 by decide),
      getf_cons_ne (show pairKey 2 ≠ playerKey 1 by decide)]
    rfl
  have g2 : getf [(playerKey 3, v), (pairKey 2, w)] (playerKey 2) = none := by
    rw [getf_cons_ne (show playerKey 3 ≠ playerKey 2 by decide),
      getf_cons_ne (show pairKey 2 ≠ playerKey 2 by decide)]
    rfl
  have g4 : getf [(playerKey 3, v), (pairKey 2, w)] (playerKey 4) = none := by
    rw [getf_cons_ne (show playerKey 3 ≠ playerKey 4 by decide),
      getf_cons_ne (show pairKey 2 ≠ playerKey 4 by decide)]
    rfl
  unfold recStep
  rw [slotStep_skip g1, slotStep_skip g2,
    slotStep_hit_pair ga (by decide) gp,
    replaceAll_of_not_occ (wrap v) (not_occ_playerTok_pairTok (p * 4 + 3) (p * 2 + 2)),
    show p * 2 + 3 / 2 + 1 = p * 2 + 2 from by omega,
    replaceAll_whole (by simp [pairTok, wrap]) (wrap w),
    slotStep_skip g4]

/-- C1 counterexample: the claim's numbering (token number derived from the
group's position in the roster, n = group_index*4 + position + 1) is wrong.
For a five-record roster the Grouper puts the fifth record at position 0 of
the group with roster index 1, so the claim predicts its `Player1` value
lands in `>PLAYER5<`; the code passes only the chunk to `replace_svg`, whose
enumeration restarts at 0, so the value lands in `>PLAYER1<` instead. -/
theorem c1_counterexample :
    (chunks4 [([] : Rec), [], [], [], [(playerKey 1, "X".data)]]).getD 1 [] =
        [[(playerKey 1, "X".data)]] ∧
      replace_svg (">PLAYER1<>PLAYER5<".data) [[(playerKey 1, "X".data)]] ("T".data) =
        some (">X<>PLAYER5<".data) ∧
      (">X<>PLAYER5<".data : Str) ≠ ">PLAYER1<>X<".data :=
  ⟨by decide, by decide, by decide⟩

/-- C1 amended: token numbering is per chunk, not global across the roster.
For the record at 0-based position p within the group passed to the engine,
the value supplied for field slot s replaces the token `>PLAYER(p*4+s)<`,
and a supplied pair label replaces `>Pair No(p*2+1)<` for slot 1 and
`>Pair No(p*2+2)<` for slot 3; the group's roster index plays no role. -/
theorem c1_slot_numbering :
    (∀ p s (v name : Str), s < 5 → 1 ≤ s → ¬ occ nameTok (wrap v) →
      replace_svg (playerTok (p * 4 + s)) (List.replicate p [] ++ [[(playerKey s, v)]]) name =
        some (wrap v)) ∧
    (∀ p (v w name : Str), ¬ occ nameTok (wrap w) →
      replace_svg (pairTok (p * 2 + 1))
          (List.replicate p [] ++ [[(playerKey 1, v), (pairKey 1, w)]]) name =
        some (wrap w)) ∧
    (∀ p (v w name : Str), ¬ occ nameTok (wrap w) →
      replace_svg (pairTok (p * 2 + 2))
          (List.replicate p [] ++ [[(playerKey 3, v), (pairKey 2, w)]]) name =
        some (wrap w)) := by
  refine ⟨?_, ?_, ?_⟩
  · intro p s v name hs5 hs1 hname
    rw [replace_svg_pad, recStep_single p s v hs5 hs1, replaceAll_of_not_occ name hname]
  · intro p v w name hname
    rw [replace_svg_pad, recStep_pair1 p v w, replaceAll_of_not_occ name hname]
  · intro p v w name hname
    rw [replace_svg_pad, recStep_pair2 p v w, replaceAll_of_not_occ name hname]

/-- C1 amended witness: the per-chunk numbering evaluated at position 1,
slot 2 and at a pair slot, discharging the hypotheses of
`c1_slot_numbering`. -/
theorem c1_witness :
    replace_svg (playerTok (1 * 4 + 2)) (List.replicate 1 [] ++ [[(playerKey 2, "Bob".data)]])
        ("T".data) = some (wrap ("Bob".data)) ∧
      replace_svg (pairTok (1 * 2 + 1))
          (List.replicate 1 [] ++ [[(playerKey 1, "A".data), (pairKey 1, "7".data)]])
          ("T".data) = some (wrap ("7".data)) :=
  ⟨c1_slot_numbering.1 1 2 ("Bob".data) ("T".data) (by omega) (by omega) (by decide),
    c1_slot_numbering.2.1 1 ("A".data) ("7".data) ("T".data) (by decide)⟩

theorem replace_svg_one (r : Rec) (T name : Str) :
    replace_svg T [r] name = some (replaceAll (recStep 0 r T) nameTok name) := by
  unfold replace_svg
  rw [if_neg (by simp)]
  rfl

/-- C8 counterexample: a group of four distinct non-empty values does not
always leave each token holding exactly its own value: when the slot-1 value
is itself placeholder text, the slot-2 replacement consumes the freshly
inserted `>PLAYER2<`, so the token for `PLAYER1` ends up holding the slot-2
value instead of its own. -/
theorem c8_counterexample :
    replace_svg (">PLAYER1<".data)
        [[(playerKey 1, "PLAYER2".data), (playerKey 2, "B".data), (playerKey 3, "C".data),
          (playerKey 4, "D".data)]] ("T".data) = some (">B<".data) ∧
      (">B<".data : Str) ≠ ">PLAYER2<".data :=
  ⟨by decide, by decide⟩

/-- C8 amended: for a group of four distinct non-empty values that are
bracket-free and token-free, each player token ends up replaced with exactly
its own bracketed value, and cross-contamination between token numbers is
impossible: no token `>PLAYERm<` ever occurs inside a different token
`>PLAYERn<`, because the full bracketed token must match contiguously. -/
theorem c8_token_injective :
    (∀ (v1 v2 v3 v4 name : Str),
      v1 ≠ v2 → v1 ≠ v3 → v1 ≠ v4 → v2 ≠ v3 → v2 ≠ v4 → v3 ≠ v4 →
      v1 ≠ [] → v2 ≠ [] → v3 ≠ [] → v4 ≠ [] →
      bfree v1 → tokenFree v1 → bfree v2 → tokenFree v2 →
      bfree v3 → tokenFree v3 → bfree v4 → tokenFree v4 →
      ∀ s, s < 5 → 1 ≤ s →
        replace_svg (playerTok s)
            [[(playerKey 1, v1), (playerKey 2, v2), (playerKey 3, v3), (playerKey 4, v4)]]
            name =
          some (wrap ([v1, v2, v3, v4].getD (s - 1) []))) ∧
    (∀ m n, m ≠ n → ¬ occ (playerTok m) (playerTok n)) := by
  constructor
  · intro v1 v2 v3 v4 name _ _ _ _ _ _ _ _ _ _ hb1 ht1 hb2 ht2 hb3 ht3 hb4 ht4 s hs5 hs1
    have e1 : getf [(playerKey 1, v1), (playerKey 2, v2), (playerKey 3, v3),
        (playerKey 4, v4)] (playerKey 1) = some v1 := getf_cons_self _ _ _
    have e2 : getf [(playerKey 1, v1), (playerKey 2, v2), (playerKey 3, v3),
        (playerKey 4, v4)] (playerKey 2) = some v2 := by
      rw [getf_cons_ne (show playerKey 1 ≠ playerKey 2 by decide)]
      exact getf_cons_self _ _ _
    have e3 : getf [(playerKey 1, v1), (playerKey 2, v2), (playerKey 3, v3),
        (playerKey 4, v4)] (playerKey 3) = some v3 := by
      rw [getf_cons_ne (show playerKey 1 ≠ playerKey 3 by decide),
        getf_cons_ne (show playerKey 2 ≠ playerKey 3 by decide)]
      exact getf_cons_self _ _ _
    have e4 : getf [(playerKey 1, v1), (playerKey 2, v2), (playerKey 3, v3),
        (playerKey 4, v4)] (playerKey 4) = some v4 := by
      rw [getf_cons_ne (show playerKey 1 ≠ playerKey 4 by decide),
        getf_cons_ne (show playerKey 2 ≠ playerKey 4 by decide),
        getf_cons_ne (show playerKey 3 ≠ playerKey 4 by decide)]
      exact getf_cons_self _ _ _
    have p1 : getf [(playerKey 1, v1), (playerKey 2, v2), (playerKey 3, v3),
        (playerKey 4, v4)] (pairKey (1 / 2 + 1)) = none := by
      rw [getf_cons_ne (show playerKey 1 ≠ pairKey (1 / 2 + 1) by decide),
        getf_cons_ne (show playerKey 2 ≠ pairKey (1 / 2 + 1) by decide),
        getf_cons_ne (show playerKey 3 ≠ pairKey (1 / 2 + 1) by decide),
        getf_cons_ne (show playerKey 4 ≠ pairKey (1 / 2 + 1) by decide)]
      rfl
    have p3 : getf [(playerKey 1, v1), (playerKey 2, v2), (playerKey 3, v3),
        (playerKey 4, v4)] (pairKey (3 / 2 + 1)) = none := by
      rw [getf_cons_ne (show playerKey 1 ≠ pairKey (3 / 2 + 1) by decide),
        getf_cons_ne (show playerKey 2 ≠ pairKey (3 / 2 + 1) by decide),
        getf_cons_ne (show playerKey 3 ≠ pairKey (3 / 2 + 1) by decide),
        getf_cons_ne (show playerKey 4 ≠ pairKey (3 / 2 + 1) by decide)]
      rfl
    interval_cases s
    · rw [replace_svg_one]
      unfold recStep
      rw [slotStep_hit_pair_none e1 (by decide) p1,
        show (0 : Nat) * 4 + 1 = 1 from rfl,
        replaceAll_whole (by simp [playerTok, wrap]) (wrap v1),
        slotStep_hit e2 (by decide),
        replaceAll_of_not_occ (wrap v2) (not_occ_playerTok_wrap hb1 ht1),
        slotStep_hit_pair_none e3 (by decide) p3,
        replaceAll_of_not_occ (wrap v3) (not_occ_playerTok_wrap hb1 ht1),
        slotStep_hit e4 (by decide),
        replaceAll_of_not_occ (wrap v4) (not_occ_playerTok_wrap hb1 ht1),
        replaceAll_of_not_occ name (not_occ_nameTok_wrap ht1)]
      rfl
    · rw [replace_svg_one]
      unfold recStep
      rw [slotStep_hit_pair_none e1 (by decide) p1,
        replaceAll_of_not_occ (wrap v1)
          (not_occ_playerTok_playerTok (show (0 : Nat) * 4 + 1 ≠ 2 by omega)),
        slotStep_hit e2 (by decide),
        show (0 : Nat) * 4 + 2 = 2 from rfl,
        replaceAll_whole (by simp [playerTok, wrap]) (wrap v2),
        slotStep_hit_pair_none e3 (by decide) p3,
        replaceAll_of_not_occ (wrap v3) (not_occ_playerTok_wrap hb2 ht2),
        slotStep_hit e4 (by decide),
        replaceAll_of_not_occ (wrap v4) (not_occ_playerTok_wrap hb2 ht2),
        replaceAll_of_not_occ name (not_occ_nameTok_wrap ht2)]
      rfl
    · rw [replace_svg_one]
      unfold recStep
      rw [slotStep_hit_pair_none e1 (by decide) p1,
        replaceAll_of_not_occ (wrap v1)
          (not_occ_playerTok_playerTok (show (0 : Nat) * 4 + 1 ≠ 3 by omega)),
        slotStep_hit e2 (by decide),
        replaceAll_of_not_occ (wrap v2)
          (not_occ_playerTok_playerTok (show (0 : Nat) * 4 + 2 ≠ 3 by omega)),
        slotStep_hit_pair_none e3 (by decide) p3,
        show (0 : Nat) * 4 + 3 = 3 from rfl,
        replaceAll_whole (by simp [playerTok, wrap]) (wrap v3),
        slotStep_hit e4 (by decide),
        replaceAll_of_not_occ (wrap v4) (not_occ_playerTok_wrap hb3 ht3),
        replaceAll_of_not_occ name (not_occ_nameTok_wrap ht3)]
      rfl
    · rw [replace_svg_one]
      unfold recStep
      rw [slotStep_hit_pair_none e1 (by decide) p1,
        replaceAll_of_not_occ (wrap v1)
          (not_occ_playerTok_playerTok (show (0 : Nat) * 4 + 1 ≠ 4 by omega)),
        slotStep_hit e2 (by decide),
        replaceAll_of_not_occ (wrap v2)
          (not_occ_playerTok_playerTok (show (0 : Nat) * 4 + 2 ≠ 4 by omega)),
        slotStep_hit_pair_none e3 (by decide) p3,
        replaceAll_of_not_occ (wrap v3)
          (not_occ_playerTok_playerTok (show (0 : Nat) * 4 + 3 ≠ 4 by omega)),
        slotStep_hit e4 (by decide),
        show (0 : Nat) * 4 + 4 = 4 from rfl,
        replaceAll_whole (by simp [playerTok, wrap]) (wrap v4),
        replaceAll_of_not_occ name (not_occ_nameTok_wrap ht4)]
      rfl
  · intro m n hmn
    exact not_occ_playerTok_playerTok hmn

/-- C8 amended witness: the per-token exactness evaluated on four concrete
distinct clean values at slot 2, discharging every hypothesis of
`c8_token_injective`. -/
theorem c8_witness :
    replace_svg (playerTok 2)
        [[(playerKey 1, "Alice".data), (playerKey 2, "Bob".data), (playerKey 3, "Carol".data),
          (playerKey 4, "Dave".data)]] ("T".data) =
      some (wrap (["Alice".data, "Bob".data, "Carol".data, "Dave".data].getD (2 - 1) [])) :=
  c8_token_injective.1 ("Alice".data) ("Bob".data) ("Carol".data) ("Dave".data) ("T".data)
    (by decide) (by decide) (by decide) (by decide) (by decide) (by decide)
    (by decide) (by decide) (by decide) (by decide)
    (by decide) (by decide) (by decide) (by decide)
    (by decide) (by decide) (by decide) (by decide)
    2 (by omega) (by omega)

/-! ### Discipline of the engine's replacement steps -/

theorem mem_slotSteps {p s : Nat} {r : Rec} {x : Str × Str} (hx : x ∈ slotSteps p s r) :
    (x.1 = midPlayer (p * 4 + s) ∨ ((s = 1 ∨ s = 3) ∧ x.1 = midPair (p * 2 + s / 2 + 1))) ∧
      ∃ k v, getf r k = some v ∧ x.2 = v := by
  unfold slotSteps at hx
  cases hg : getf r (playerKey s) with
  | none => simp only [hg] at hx; simp at hx
  | some v =>
    simp only [hg] at hx
    rcases List.mem_cons.1 hx with rfl | hx2
    · exact ⟨Or.inl rfl, playerKey s, v, hg, rfl⟩
    · by_cases h13 : s = 1 ∨ s = 3
      · rw [if_pos h13] at hx2
        cases hp : getf r (pairKey (s / 2 + 1)) with
        | none => simp only [hp] at hx2; simp at hx2
        | some w =>
          simp only [hp] at hx2
          have hx3 := List.mem_singleton.1 hx2
          subst hx3
          exact ⟨Or.inr ⟨h13, rfl⟩, pairKey (s / 2 + 1), w, hp, rfl⟩
      · rw [if_neg h13] at hx2
        simp at hx2

theorem mem_recSteps {p : Nat} {r : Rec} {x : Str × Str} (hx : x ∈ recSteps p r) :
    ∃ s, 1 ≤ s ∧ s < 5 ∧ x ∈ slotSteps p s r := by
  unfold recSteps at hx
  rcases List.mem_append.1 hx with hx | h
  · rcases List.mem_append.1 hx with hx | h
    · rcases List.mem_append.1 hx with h | h
      · exact ⟨1, by omega, by omega, h⟩
      · exact ⟨2, by omega, by omega, h⟩
    · exact ⟨3, by omega, by omega, h⟩
  · exact ⟨4, by omega, by omega, h⟩

theorem mem_stepsAux : ∀ {rs : List Rec} {p : Nat} {x : Str × Str}, x ∈ stepsAux p rs →
    ∃ q r, p ≤ q ∧ r ∈ rs ∧ x ∈ recSteps q r := by
  intro rs
  induction rs with
  | nil => intro p x hx; simp [stepsAux] at hx
  | cons r rs ih =>
    intro p x hx
    rcases List.mem_append.1 (by simpa [stepsAux] using hx) with h | h
    · exact ⟨p, r, le_rfl, List.mem_cons_self _ _, h⟩
    · obtain ⟨q, r', hq, hr', hx'⟩ := ih h
      exact ⟨q, r', by omega, List.mem_cons_of_mem _ hr', hx'⟩

theorem stepsAux_ok (rs : List Rec) (p : Nat) (hcl : ∀ r ∈ rs, cleanRec r) :
    ∀ x ∈ stepsAux p rs, StepOk x := by
  intro x hx
  obtain ⟨q, r, _, hr, hx2⟩ := mem_stepsAux hx
  obtain ⟨s, _, _, hx3⟩ := mem_recSteps hx2
  obtain ⟨hmid, k, v, hk, hv⟩ := mem_slotSteps hx3
  have hval := hcl r hr (k, v) (getf_mem hk)
  constructor
  · rcases hmid with h | ⟨_, h⟩
    · rw [h]; exact bfree_midPlayer _
    · rw [h]; exact bfree_midPair _
  · rw [hv]; exact hval.1

theorem compat_general {p s p' s' : Nat} {r r' : Rec} {x y : Str × Str}
    (hx : x ∈ slotSteps p s r) (hy : y ∈ slotSteps p' s' r')
    (hcr : cleanRec r) (hcr' : cleanRec r')
    (h1 : 1 ≤ s) (h5 : s < 5) (h1' : 1 ≤ s') (h5' : s' < 5)
    (hne : p ≠ p' ∨ s ≠ s') :
    StepsCompat x y := by
  obtain ⟨hmx, kx, vx, hkx, hvx⟩ := mem_slotSteps hx
  obtain ⟨hmy, ky, vy, hky, hvy⟩ := mem_slotSteps hy
  have hcx := hcr (kx, vx) (getf_mem hkx)
  have hcy := hcr' (ky, vy) (getf_mem hky)
  refine ⟨?_, ?_, ?_⟩
  · rcases hmx with hx1 | ⟨hs13, hx1⟩ <;> rcases hmy with hy1 | ⟨hs13', hy1⟩ <;>
      rw [hx1, hy1]
    · intro h
      have he := midPlayer_inj h
      rcases hne with hp | hs <;> omega
    · exact midPlayer_ne_midPair _ _
    · exact fun h => midPlayer_ne_midPair _ _ h.symm
    · intro h
      have he := midPair_inj h
      rcases hs13 with rfl | rfl <;> rcases hs13' with rfl | rfl <;>
        rcases hne with hp | hs <;> omega
  · rcases hmx with hx1 | ⟨_, hx1⟩ <;> rw [hx1, hvy]
    · exact ne_of_tokenFree_midPlayer hcy.2
    · exact ne_of_tokenFree_midPair hcy.2
  · rcases hmy with hy1 | ⟨_, hy1⟩ <;> rw [hy1, hvx]
    · exact ne_of_tokenFree_midPlayer hcx.2
    · exact ne_of_tokenFree_midPair hcx.2

theorem slotSteps_pairwise {p s : Nat} {r : Rec} (hcr : cleanRec r) :
    (slotSteps p s r).Pairwise StepsCompat := by
  unfold slotSteps
  cases hg : getf r (playerKey s) with
  | none => exact List.Pairwise.nil
  | some v =>
    by_cases h13 : s = 1 ∨ s = 3
    · rw [if_pos h13]
      cases hp : getf r (pairKey (s / 2 + 1)) with
      | none => simp
      | some w =>
        refine List.pairwise_cons.2 ⟨?_, by simp⟩
        intro y hy
        have hy2 := List.mem_singleton.1 hy
        subst hy2
        have hv := hcr (playerKey s, v) (getf_mem hg)
        have hw := hcr (pairKey (s / 2 + 1), w) (getf_mem hp)
        exact ⟨midPlayer_ne_midPair _ _, ne_of_tokenFree_midPlayer hw.2,
          ne_of_tokenFree_midPair hv.2⟩
    · rw [if_neg h13]
      simp

theorem recSteps_pairwise {p : Nat} {r : Rec} (hcr : cleanRec r) :
    (recSteps p r).Pairwise StepsCompat := by
  unfold recSteps
  refine List.pairwise_append.2 ⟨?_, slotSteps_pairwise hcr, ?_⟩
  · refine List.pairwise_append.2 ⟨?_, slotSteps_pairwise hcr, ?_⟩
    · refine List.pairwise_append.2
        ⟨slotSteps_pairwise hcr, slotSteps_pairwise hcr, ?_⟩
      intro x hx y hy
      exact compat_general hx hy hcr hcr (by omega) (by omega) (by omega) (by omega)
        (Or.inr (by omega))
    · intro x hx y hy
      rcases List.mem_append.1 hx with hx | hx
      · exact compat_general hx hy hcr hcr (by omega) (by omega) (by omega) (by omega)
          (Or.inr (by omega))
      · exact compat_general hx hy hcr hcr (by omega) (by omega) (by omega) (by omega)
          (Or.inr (by omega))
  · intro x hx y hy
    rcases List.mem_append.1 hx with hx | hx
    · rcases List.mem_append.1 hx with hx | hx
      · exact compat_general hx hy hcr hcr (by omega) (by omega) (by omega) (by omega)
          (Or.inr (by omega))
      · exact compat_general hx hy hcr hcr (by omega) (by omega) (by omega) (by omega)
          (Or.inr (by omega))
    · exact compat_general hx hy hcr hcr (by omega) (by omega) (by omega) (by omega)
        (Or.inr (by omega))

theorem stepsAux_pairwise : ∀ (rs : List Rec) (p : Nat), (∀ r ∈ rs, cleanRec r) →
    (stepsAux p rs).Pairwise StepsCompat := by
  intro rs
  induction rs with
  | nil => intro p _; exact List.Pairwise.nil
  | cons r rs ih =>
    intro p hcl
    show (recSteps p r ++ stepsAux (p + 1) rs).Pairwise StepsCompat
    refine List.pairwise_append.2 ⟨recSteps_pairwise (hcl r (List.mem_cons_self _ _)),
      ih (p + 1) (fun r' hr' => hcl r' (List.mem_cons_of_mem _ hr')), ?_⟩
    intro x hx y hy
    obtain ⟨q, r', hq, hr', hy2⟩ := mem_stepsAux hy
    obtain ⟨s, hs1, hs5, hx3⟩ := mem_recSteps hx
    obtain ⟨s', hs1', hs5', hy3⟩ := mem_recSteps hy2
    exact compat_general hx3 hy3 (hcl r (List.mem_cons_self _ _))
      (hcl r' (List.mem_cons_of_mem _ hr')) hs1 hs5 hs1' hs5' (Or.inl (by omega))

/-- C2 counterexample: substitution is plain sequential text replacement, so
when a record value itself contains placeholder text the text inserted by
one replacement is consumed by a later one: the slot-1 value `PLAYER2` is
inserted as `>PLAYER2<` and then re-substituted by the slot-2 step, so the
claimed safety for values containing placeholder-token text fails. -/
theorem c2_counterexample :
    replace_svg (">PLAYER1<".data)
        [[(playerKey 1, "PLAYER2".data), (playerKey 2, "Bob".data)]] ("T".data) =
      some (">Bob<".data) ∧
      (">Bob<".data : Str) ≠ ">PLAYER2<".data :=
  ⟨by decide, by decide⟩

/-- C2 amended: when every record value is bracket-free and token-free, the
player/pair replacements are order-independent-safe: the engine's output
equals the per-slot replacement steps applied in any permuted order,
followed by the `NAME` phase, so no inserted text is consumed or
re-substituted by a later replacement.  (The claim's extension to values
that themselves contain placeholder-token text is false, see the
counterexample.) -/
theorem c2_order_independent (groups : List Rec) (svg name : Str)
    (order : List (Str × Str)) (hne : groups ≠ [])
    (hcl : ∀ r ∈ groups, cleanRec r)
    (hperm : order.Perm (stepsAux 0 groups)) :
    replace_svg svg groups name = some (replaceAll (applySteps order svg) nameTok name) := by
  unfold replace_svg
  rw [if_neg hne]
  congr 2
  rw [phaseAux_eq_applySteps groups 0 svg]
  exact (applySteps_perm hperm
    (fun x hx => stepsAux_ok groups 0 hcl x (hperm.mem_iff.1 hx))
    ((hperm.pairwise_iff (fun h => stepsCompat_symm h)).2 (stepsAux_pairwise groups 0 hcl))
    svg).symm

/-- C2 amended witness: the order-independence applied to a concrete group
and a concrete reversed step order, discharging every hypothesis of
`c2_order_independent`. -/
theorem c2_witness :
    replace_svg (">PLAYER1<>PLAYER2<".data)
        [[(playerKey 1, "A".data), (playerKey 2, "B".data)]] ("T".data) =
      some (replaceAll
        (applySteps [(midPlayer 2, "B".data), (midPlayer 1, "A".data)]
          (">PLAYER1<>PLAYER2<".data))
        nameTok ("T".data)) :=
  c2_order_independent _ _ _ _ (by decide) (by decide) (by decide)

/-- C4: the concrete end-to-end scenario.  The roster has the exact expected
positional header and the single data line `Alice,Bob,Carol,Dave`; with
template `>PLAYER1<>PLAYER2<>PLAYER3<>PLAYER4<NAME` and tournament name
`Spring Cup` the run substitutes `>Alice<>Bob<>Carol<>Dave<Spring Cup` and
produces exactly one artifact, named `base_0.pdf`.  Settled against the
positional variant modelled from the spec (`positionalRun`), because that
variant's source is not under `src/`. -/
theorem c4_positional_scenario (base : Str) :
    positionalRun ["player1,player2,player3,player4".data, "Alice,Bob,Carol,Dave".data]
        (">PLAYER1<>PLAYER2<>PLAYER3<>PLAYER4<NAME".data) ("Spring Cup".data) base =
      some [(">Alice<>Bob<>Carol<>Dave<Spring Cup".data, outName base 0)] ∧
      outName base 0 = base ++ "_0.pdf".data := by
  refine ⟨rfl, ?_⟩
  show (base ++ ('_' :: natStr 0)) ++ ".pdf".data = base ++ "_0.pdf".data
  rw [List.append_assoc]
  rfl
